import Mathlib

/-!
Shallow embedding of the word-search placement engine of `src/lib/word-search-store.ts`
(wordframe.ai).  Grids are height × width matrices of cells; the availability mask is a
boolean matrix of the same shape.  JavaScript arrays indexed as `grid[row][col]` are
modelled by a total function `cells : Nat → Nat → GridCell` together with explicit
`height`/`width` fields; every access the source performs is bounds-checked before the
read/write (this is proved, see the bounds-safety theorem), so the values of the model
functions outside the grid rectangle are never observed by the embedded operations.
Randomness (`Math.random()` letter draws, the word supplier) is modelled by oracle
functions supplied as parameters.
-/

namespace WordSearch

/-- A grid cell: `letter` (`none` models the empty string `''`), the `isWordLetter`
flag and the `wordIds` array, exactly the fields of the `GridCell` interface. -/
structure GridCell where
  letter : Option Char
  isWordLetter : Bool
  wordIds : List Nat
deriving DecidableEq, Repr, Inhabited

/-- The freshly created cell `{ letter: '', isWordLetter: false, wordIds: [] }`. -/
def emptyCell : GridCell := ⟨none, false, []⟩

/-- The four placement directions of `WordSearchWord['direction']`. -/
inductive Direction where
  | horizontal
  | vertical
  | diagonalDown
  | diagonalUp
deriving DecidableEq, Repr, Inhabited

/-- Per-step row delta of a direction (the `row += i` / `row -= i` cases of the
`switch (direction)` blocks). -/
def Direction.dRow : Direction → Int
  | .horizontal => 0
  | .vertical => 1
  | .diagonalDown => 1
  | .diagonalUp => -1

/-- Per-step column delta of a direction. -/
def Direction.dCol : Direction → Int
  | .horizontal => 1
  | .vertical => 0
  | .diagonalDown => 1
  | .diagonalUp => 1

/-- The mutable grid: `GridCell[][]` with its dimensions. -/
structure Grid where
  height : Nat
  width : Nat
  cells : Nat → Nat → GridCell

/-- The availability mask `boolean[][]` (`availablePositions`). -/
abbrev Mask := Nat → Nat → Bool

/-- Row visited at step `i` of a word walk starting at `startRow`. -/
def rowAt (startRow : Int) (d : Direction) (i : Nat) : Int := startRow + i * d.dRow

/-- Column visited at step `i` of a word walk starting at `startCol`. -/
def colAt (startCol : Int) (d : Direction) (i : Nat) : Int := startCol + i * d.dCol

/-- The bounds check `!(row < 0 || row >= gridHeight || col < 0 || col >= gridWidth)`. -/
def inBoundsRC (g : Grid) (r c : Int) : Bool :=
  decide (0 ≤ r ∧ r < (g.height : Int) ∧ 0 ≤ c ∧ c < (g.width : Int))

/-- Read `grid[row][col]` once the coordinates are known to be non-negative. -/
def cellAt (g : Grid) (r c : Int) : GridCell := g.cells r.toNat c.toNat

/-- Read `grid[row][col].letter`. -/
def letterAt (g : Grid) (r c : Int) : Option Char := (cellAt g r c).letter

/-- Functional write of one cell (`grid[row][col] = cell`). -/
def Grid.setCell (g : Grid) (r c : Nat) (cell : GridCell) : Grid :=
  ⟨g.height, g.width, fun r' c' => if r' = r ∧ c' = c then cell else g.cells r' c'⟩

/-- Functional write of one letter (`grid[row][col].letter = ch`). -/
def Grid.setLetter (g : Grid) (r c : Nat) (ch : Char) : Grid :=
  g.setCell r c { g.cells r c with letter := some ch }

/-- Loop body chain of `canPlaceWord`: starting at loop index `i`, check the
remaining characters of the word.  Faithful to the source: bounds check, then mask
check, then the `existingLetter && existingLetter !== word[i]` rejection. -/
def canPlaceWordFrom (g : Grid) (avail : Mask) (startRow startCol : Int)
    (d : Direction) : Nat → List Char → Bool
  | _, [] => true
  | i, ch :: rest =>
    let r := rowAt startRow d i
    let c := colAt startCol d i
    if r < 0 ∨ (g.height : Int) ≤ r ∨ c < 0 ∨ (g.width : Int) ≤ c then false
    else if avail r.toNat c.toNat = false then false
    else
      match letterAt g r c with
      | some e => if e ≠ ch then false else canPlaceWordFrom g avail startRow startCol d (i + 1) rest
      | none => canPlaceWordFrom g avail startRow startCol d (i + 1) rest

/-- `canPlaceWord(word, startRow, startCol, direction, grid, availablePositions)`. -/
def canPlaceWord (word : List Char) (startRow startCol : Int) (d : Direction)
    (g : Grid) (avail : Mask) : Bool :=
  canPlaceWordFrom g avail startRow startCol d 0 word

/-- Loop body chain of `calculateOverlap`: counts footprint cells whose existing
letter is non-empty and equal to the corresponding word character. -/
def calculateOverlapFrom (g : Grid) (startRow startCol : Int) (d : Direction) :
    Nat → List Char → Nat
  | _, [] => 0
  | i, ch :: rest =>
    (if letterAt g (rowAt startRow d i) (colAt startCol d i) = some ch then 1 else 0)
      + calculateOverlapFrom g startRow startCol d (i + 1) rest

/-- `calculateOverlap(word, startRow, startCol, direction, grid)`. -/
def calculateOverlap (word : List Char) (startRow startCol : Int) (d : Direction)
    (g : Grid) : Nat :=
  calculateOverlapFrom g startRow startCol d 0 word

/-- The `wordIds` push of `placeWordInGrid`: append the id unless already present. -/
def pushWordId (ids : List Nat) (wid : Nat) : List Nat :=
  if wid ∈ ids then ids else ids ++ [wid]

/-- One loop body of `placeWordInGrid`: write the letter only if the cell is empty
or already holds the same letter, marking `isWordLetter` and pushing the word id
(the source uses the word length as rough id). -/
def placeLetterStep (wid : Nat) (g : Grid) (r c : Int) (ch : Char) : Grid :=
  let cell := cellAt g r c
  match cell.letter with
  | none => g.setCell r.toNat c.toNat ⟨some ch, true, pushWordId cell.wordIds wid⟩
  | some e =>
    if e = ch then g.setCell r.toNat c.toNat ⟨some ch, true, pushWordId cell.wordIds wid⟩
    else g

/-- Loop chain of `placeWordInGrid` from loop index `i`. -/
def placeWordInGridFrom (wid : Nat) (startRow startCol : Int) (d : Direction) :
    Nat → List Char → Grid → Grid
  | _, [], g => g
  | i, ch :: rest, g =>
    placeWordInGridFrom wid startRow startCol d (i + 1) rest
      (placeLetterStep wid g (rowAt startRow d i) (colAt startCol d i) ch)

/-- `placeWordInGrid(word, position, direction, grid)` (grid-mutating part). -/
def placeWordInGrid (word : List Char) (startRow startCol : Int) (d : Direction)
    (g : Grid) : Grid :=
  placeWordInGridFrom word.length startRow startCol d 0 word g

/-- Insert into a sorted list, keeping earlier-inserted equal elements first.
Models the (stable) `Array.prototype.sort` used by the source. -/
def insertSorted (le : α → α → Bool) (a : α) : List α → List α
  | [] => [a]
  | b :: l => if le a b then a :: b :: l else b :: insertSorted le a l

/-- Stable sort by a boolean comparison, modelling `Array.prototype.sort`. -/
def sortBy (le : α → α → Bool) : List α → List α
  | [] => []
  | a :: l => insertSorted le a (sortBy le l)

/-- A scored start position `{ row, col, overlap }` of `findAllValidPositions`. -/
structure ScoredPos where
  row : Nat
  col : Nat
  overlap : Nat
deriving DecidableEq, Repr

/-- `findAllValidPositions(word, direction, grid, availablePositions)`: the exhaustive
row-major scan collecting `canPlaceWord` positions with their overlaps, sorted by
descending overlap. -/
def findAllValidPositions (word : List Char) (d : Direction) (g : Grid)
    (avail : Mask) : List ScoredPos :=
  sortBy (fun a b => b.overlap ≤ a.overlap)
    ((List.range g.height).flatMap fun row =>
      (List.range g.width).filterMap fun col =>
        if canPlaceWord word (Int.ofNat row) (Int.ofNat col) d g avail then
          some (ScoredPos.mk row col
            (calculateOverlap word (Int.ofNat row) (Int.ofNat col) d g))
        else none)

/-- A merged candidate `{ row, col, overlap, direction }` of
`placeWordsInGridWithUpdates`. -/
structure Candidate where
  row : Nat
  col : Nat
  overlap : Nat
  dir : Direction
deriving DecidableEq, Repr

/-- The direction list `['horizontal', 'vertical', 'diagonal-down', 'diagonal-up']`. -/
def directionsList : List Direction :=
  [Direction.horizontal, Direction.vertical, Direction.diagonalDown, Direction.diagonalUp]

/-- Candidate collection of `placeWordsInGridWithUpdates` for one word: positions of
all four directions, merged. -/
def allValidPositionsAllDirs (word : List Char) (g : Grid) (avail : Mask) :
    List Candidate :=
  directionsList.flatMap fun d =>
    (findAllValidPositions word d g avail).map fun p =>
      Candidate.mk p.row p.col p.overlap d

/-- The comparator score `Math.min(overlap, word.length - 1)` used when re-ranking
merged candidates.  (JavaScript computes `word.length - 1` over numbers; `Nat`
subtraction only differs for the empty word, for which the subsequent
`overlap < word.length` filter leaves no candidate either way.) -/
def cappedScore (wordLen : Nat) (cand : Candidate) : Nat :=
  min cand.overlap (wordLen - 1)

/-- Candidates of `placeWordsInGridWithUpdates` after the sort by descending capped
score and the `pos.overlap < word.word.length` filter rejecting complete overlaps. -/
def filteredCandidates (word : List Char) (g : Grid) (avail : Mask) : List Candidate :=
  (sortBy (fun a b => cappedScore word.length b ≤ cappedScore word.length a)
      (allValidPositionsAllDirs word g avail)).filter
    fun p => p.overlap < word.length

/-- Per-word selection of `placeWordsInGridWithUpdates`: among the filtered
candidates, take the top tier (overlap equal to the first candidate's overlap) and
pick the element the random oracle `pick` designates
(`bestPositions[Math.floor(Math.random() * bestPositions.length)]`). -/
def placeWordsSelectPosition (word : List Char) (g : Grid) (avail : Mask)
    (pick : Nat) : Option Candidate :=
  match filteredCandidates word g avail with
  | [] => none
  | p :: rest =>
    let bestOverlap := p.overlap
    let bestPositions := (p :: rest).filter fun q => q.overlap = bestOverlap
    bestPositions.get? (pick % bestPositions.length)

/-- Specification predicate (exact-letter variant): every footprint cell of the word
is in bounds, mask-available, and empty or already holding the very character the
word would place there. -/
def ValidPosExact (word : List Char) (startRow startCol : Int) (d : Direction)
    (g : Grid) (avail : Mask) : Prop :=
  ∀ i : Nat, i < word.length →
    inBoundsRC g (rowAt startRow d i) (colAt startCol d i) = true ∧
    avail (rowAt startRow d i).toNat (colAt startCol d i).toNat = true ∧
    (letterAt g (rowAt startRow d i) (colAt startCol d i) = none ∨
      letterAt g (rowAt startRow d i) (colAt startCol d i) = some (word.getD i 'A'))

/-- Modelled from the spec: the validity criterion as the spec words it, with the
letter comparison "case-insensitive (normalized to uppercase)".  A footprint cell
may be empty or hold any letter whose uppercase form equals the uppercase form of
the character the word would place. -/
def ValidPosCI (word : List Char) (startRow startCol : Int) (d : Direction)
    (g : Grid) (avail : Mask) : Prop :=
  ∀ i : Nat, i < word.length →
    inBoundsRC g (rowAt startRow d i) (colAt startCol d i) = true ∧
    avail (rowAt startRow d i).toNat (colAt startCol d i).toNat = true ∧
    (letterAt g (rowAt startRow d i) (colAt startCol d i) = none ∨
      (letterAt g (rowAt startRow d i) (colAt startCol d i)).map Char.toUpper
        = some ((word.getD i 'A').toUpper))

/-- Whole-footprint pre-existing match: every cell of the word's footprint already
holds exactly the letter the word would place (the degenerate full-overlap case). -/
def FullMatchAt (word : List Char) (startRow startCol : Int) (d : Direction)
    (g : Grid) : Prop :=
  ∀ i : Nat, i < word.length →
    letterAt g (rowAt startRow d i) (colAt startCol d i) = some (word.getD i 'A')

/-- The grid produced by `analyzeThresholdImage`: available (dark) cells stay empty,
unavailable (light) cells immediately receive a random noise letter (oracle `noise`)
with `isWordLetter = false` and empty `wordIds`. -/
def ingestGrid (height width : Nat) (noise : Nat → Nat → Char) (avail : Mask) : Grid :=
  ⟨height, width, fun r c =>
    if avail r c then emptyCell else ⟨some (noise r c), false, []⟩⟩

/-- The `positionsToFill` scan of `fillEmptySpacesWithUpdates`: all grid coordinates
that are mask-available and still empty, in row-major order. -/
def positionsToFill (g : Grid) (avail : Mask) : List (Nat × Nat) :=
  (List.range g.height).flatMap fun row =>
    (List.range g.width).filterMap fun col =>
      if avail row col = true ∧ (g.cells row col).letter = none then some (row, col)
      else none

/-- `fillEmptySpacesWithUpdates(grid, availablePositions, set)`: write one random
letter (oracle `noise`) into every position collected by `positionsToFill`. -/
def fillEmptySpacesWithUpdates (noise : Nat → Nat → Char) (g : Grid) (avail : Mask) :
    Grid :=
  (positionsToFill g avail).foldl
    (fun acc rc => acc.setLetter rc.1 rc.2 (noise rc.1 rc.2)) g

/-- A word entry (`WordSearchWord`): the word's characters, its hint, and the
placement record. -/
structure WordSearchWord where
  word : List Char
  hint : String
  placed : Bool
  startRow : Int
  startCol : Int
  direction : Direction
deriving DecidableEq, Repr, Inhabited

/-- The `ContiguousLength` record of the coverage algorithm. -/
structure ContiguousLength where
  horizontal : Nat
  vertical : Nat
  diagonalDown : Nat
  diagonalUp : Nat
deriving DecidableEq, Repr

/-- `findContiguousLengths(row, col, grid, availablePositions)`: run lengths of
consecutive available-and-empty cells in the four scan directions, each loop
breaking at the first failing cell and bounded exactly as the source loop bounds
(`c < gridWidth`, `r < gridHeight`, both for the diagonals, `row - i >= 0` for
diagonal-up). -/
def findContiguousLengths (row col : Nat) (g : Grid) (avail : Mask) :
    ContiguousLength :=
  let free := fun (r c : Nat) => avail r c && ((g.cells r c).letter == none)
  ⟨((List.range (g.width - col)).takeWhile fun i => free row (col + i)).length,
    ((List.range (g.height - row)).takeWhile fun i => free (row + i) col).length,
    ((List.range (min (g.height - row) (g.width - col))).takeWhile fun i =>
      free (row + i) (col + i)).length,
    ((List.range (min (row + 1) (g.width - col))).takeWhile fun i =>
      free (row - i) (col + i)).length⟩

/-- `findSuitableWords(words, lengths)`: words fitting some direction's contiguous
run, sorted by length, biggest first. -/
def findSuitableWords (words : List WordSearchWord) (lengths : ContiguousLength) :
    List WordSearchWord :=
  sortBy (fun a b => b.word.length ≤ a.word.length)
    (words.filter fun w =>
      decide (w.word.length ≤ lengths.horizontal ∨ w.word.length ≤ lengths.vertical ∨
        w.word.length ≤ lengths.diagonalDown ∨ w.word.length ≤ lengths.diagonalUp))

/-- The coverage algorithm's rotating orientation preference. -/
inductive Orientation where
  | horizontal
  | vertical
  | diagonal
deriving DecidableEq, Repr, Inhabited

/-- `getNextOrientation(current)`. -/
def getNextOrientation : Orientation → Orientation
  | .horizontal => .vertical
  | .vertical => .diagonal
  | .diagonal => .horizontal

/-- `getBestDirectionForWord(word, lengths, preferredOrientation)`: preferred
orientation first, then any direction that fits, defaulting to horizontal. -/
def getBestDirectionForWord (word : WordSearchWord) (lengths : ContiguousLength)
    (pref : Orientation) : Direction :=
  let n := word.word.length
  if pref = Orientation.horizontal ∧ n ≤ lengths.horizontal then Direction.horizontal
  else if pref = Orientation.vertical ∧ n ≤ lengths.vertical then Direction.vertical
  else if pref = Orientation.diagonal ∧ n ≤ lengths.diagonalDown then Direction.diagonalDown
  else if pref = Orientation.diagonal ∧ n ≤ lengths.diagonalUp then Direction.diagonalUp
  else if n ≤ lengths.horizontal then Direction.horizontal
  else if n ≤ lengths.vertical then Direction.vertical
  else if n ≤ lengths.diagonalDown then Direction.diagonalDown
  else if n ≤ lengths.diagonalUp then Direction.diagonalUp
  else Direction.horizontal

/-- All grid coordinates, as a finite set (used for the search-loop measures). -/
def gridCellsFinset (height width : Nat) : Finset (Nat × Nat) :=
  Finset.range height ×ˢ Finset.range width

/-- The eight BFS neighbor offsets of `findNearestEmptyNeighbor`. -/
def neighborDirs8 : List (Int × Int) :=
  [(-1, 0), (1, 0), (0, -1), (0, 1), (-1, -1), (-1, 1), (1, -1), (1, 1)]

/-- The four cardinal neighbor offsets of `floodFillWithRandomLetters`. -/
def neighborDirs4 : List (Int × Int) :=
  [(-1, 0), (1, 0), (0, -1), (0, 1)]

/-- The neighbor-enqueueing for-loop shared by both queue searches: for each offset,
if the neighbor is in bounds, not locally visited, and passes the extra admission
check `ok` (`fun _ _ => true` for `findNearestEmptyNeighbor`; available-and-empty
for the flood fill), mark it visited and append it to the queue with distance
one more than the popped node's.  (The flood fill's queue carries no distance in
the source; the third component is simply unused there.) -/
def enqueueNeighbors (height width : Nat) (ok : Nat → Nat → Bool) (r c dist : Nat) :
    List (Int × Int) → Finset (Nat × Nat) × List (Nat × Nat × Nat) →
      Finset (Nat × Nat) × List (Nat × Nat × Nat)
  | [], p => p
  | dd :: rest, p =>
    let nr : Int := (r : Int) + dd.1
    let nc : Int := (c : Int) + dd.2
    if 0 ≤ nr ∧ nr < (height : Int) ∧ 0 ≤ nc ∧ nc < (width : Int) ∧
        (nr.toNat, nc.toNat) ∉ p.1 ∧ ok nr.toNat nc.toNat = true then
      enqueueNeighbors height width ok r c dist rest
        (insert (nr.toNat, nc.toNat) p.1, p.2 ++ [(nr.toNat, nc.toNat, dist + 1)])
    else enqueueNeighbors height width ok r c dist rest p

/-- The BFS while-loop of `findNearestEmptyNeighbor`: pop a node; if it is at
positive distance, mask-available, empty, and not in the caller's
`visitedPositions`, return it; otherwise enqueue its unvisited in-bounds neighbors
and continue.  `height`/`width` are computed once by the caller, as in the source. -/
def bfsLoop (g : Grid) (avail : Mask) (height width : Nat)
    (visitedPos : Finset (Nat × Nat)) :
    List (Nat × Nat × Nat) → Finset (Nat × Nat) → Option (Nat × Nat)
  | [], _ => none
  | (r, c, dist) :: rest, visited =>
    if 0 < dist ∧ avail r c = true ∧ (g.cells r c).letter = none ∧
        (r, c) ∉ visitedPos then
      some (r, c)
    else
      bfsLoop g avail height width visitedPos
        (enqueueNeighbors height width (fun _ _ => true) r c dist neighborDirs8
          (visited, rest)).2
        (enqueueNeighbors height width (fun _ _ => true) r c dist neighborDirs8
          (visited, rest)).1
termination_by q visited => 2 * ((gridCellsFinset height width) \ visited).card + q.length
decreasing_by
  simp_wf
  have key : ∀ (ok : Nat → Nat → Bool) (dirs : List (Int × Int)),
      ∀ p : Finset (Nat × Nat) × List (Nat × Nat × Nat),
      2 * ((gridCellsFinset height width) \
            (enqueueNeighbors height width ok r c dist dirs p).1).card
          + (enqueueNeighbors height width ok r c dist dirs p).2.length
        ≤ 2 * ((gridCellsFinset height width) \ p.1).card + p.2.length := by
    intro ok dirs
    induction dirs with
    | nil => intro p; simp [enqueueNeighbors]
    | cons dd rest ih =>
      intro p
      rw [enqueueNeighbors]
      by_cases hcond : 0 ≤ (r : Int) + dd.1 ∧ (r : Int) + dd.1 < (height : Int) ∧
          0 ≤ (c : Int) + dd.2 ∧ (c : Int) + dd.2 < (width : Int) ∧
          (((r : Int) + dd.1).toNat, ((c : Int) + dd.2).toNat) ∉ p.1 ∧
          ok ((r : Int) + dd.1).toNat ((c : Int) + dd.2).toNat = true
      · rw [if_pos hcond]
        refine le_trans (ih _) ?goal
        obtain ⟨h1, h2, h3, h4, h5, -⟩ := hcond
        have hmem : ((((r : Int) + dd.1).toNat, ((c : Int) + dd.2).toNat) : Nat × Nat)
            ∈ gridCellsFinset height width \ p.1 := by
          rw [Finset.mem_sdiff]
          refine ⟨?g1, h5⟩
          rw [gridCellsFinset, Finset.mem_product]
          simp only [Finset.mem_range]
          constructor
          · omega
          · omega
        have hset : gridCellsFinset height width \
              insert ((((r : Int) + dd.1).toNat, ((c : Int) + dd.2).toNat)) p.1
            = (gridCellsFinset height width \ p.1).erase
                ((((r : Int) + dd.1).toNat, ((c : Int) + dd.2).toNat)) := by
          ext x
          simp only [Finset.mem_sdiff, Finset.mem_insert, Finset.mem_erase]
          tauto
        have hcard : ((gridCellsFinset height width \ p.1).erase
              ((((r : Int) + dd.1).toNat, ((c : Int) + dd.2).toNat))).card
            = (gridCellsFinset height width \ p.1).card - 1 :=
          Finset.card_erase_of_mem hmem
        have hpos : 0 < (gridCellsFinset height width \ p.1).card :=
          Finset.card_pos.mpr ⟨_, hmem⟩
        simp only [hset, hcard, List.length_append, List.length_cons, List.length_nil]
        omega
      · rw [if_neg hcond]
        exact ih p
  have h := key (fun _ _ => true) neighborDirs8 (visited, rest)
  have hl : ((r, c, dist) :: rest).length = rest.length + 1 := List.length_cons _ _
  dsimp only at h
  omega

/-- `findNearestEmptyNeighbor(currentRow, currentCol, grid, availablePositions,
visitedPositions)`: BFS from the current position for the nearest available, empty,
not-yet-visited cell. -/
def findNearestEmptyNeighbor (currentRow currentCol : Nat) (g : Grid) (avail : Mask)
    (visitedPositions : Finset (Nat × Nat)) : Option (Nat × Nat) :=
  bfsLoop g avail g.height g.width visitedPositions [(currentRow, currentCol, 0)]
    {(currentRow, currentCol)}

/-- The while-loop of `floodFillWithRandomLetters`: pop a node; if it is available
and empty, write a random letter (oracle `fillNoise`); then enqueue the cardinal
neighbors that are in bounds, locally unvisited, available and still empty in the
just-updated grid. -/
def floodFillLoop (fillNoise : Nat → Nat → Char) (height width : Nat) (avail : Mask) :
    List (Nat × Nat × Nat) → Finset (Nat × Nat) → Grid → Grid
  | [], _, g => g
  | (r, c, dist) :: rest, visited, g =>
    let g' := if avail r c = true ∧ (g.cells r c).letter = none
      then g.setLetter r c (fillNoise r c) else g
    floodFillLoop fillNoise height width avail
      (enqueueNeighbors height width
        (fun nr nc => avail nr nc && ((g'.cells nr nc).letter == none))
        r c dist neighborDirs4 (visited, rest)).2
      (enqueueNeighbors height width
        (fun nr nc => avail nr nc && ((g'.cells nr nc).letter == none))
        r c dist neighborDirs4 (visited, rest)).1
      g'
termination_by q visited _ => 2 * ((gridCellsFinset height width) \ visited).card + q.length
decreasing_by
  simp_wf
  have key : ∀ (ok : Nat → Nat → Bool) (dirs : List (Int × Int)),
      ∀ p : Finset (Nat × Nat) × List (Nat × Nat × Nat),
      2 * ((gridCellsFinset height width) \
            (enqueueNeighbors height width ok r c dist dirs p).1).card
          + (enqueueNeighbors height width ok r c dist dirs p).2.length
        ≤ 2 * ((gridCellsFinset height width) \ p.1).card + p.2.length := by
    intro ok dirs
    induction dirs with
    | nil => intro p; simp [enqueueNeighbors]
    | cons dd rest ih =>
      intro p
      rw [enqueueNeighbors]
      by_cases hcond : 0 ≤ (r : Int) + dd.1 ∧ (r : Int) + dd.1 < (height : Int) ∧
          0 ≤ (c : Int) + dd.2 ∧ (c : Int) + dd.2 < (width : Int) ∧
          (((r : Int) + dd.1).toNat, ((c : Int) + dd.2).toNat) ∉ p.1 ∧
          ok ((r : Int) + dd.1).toNat ((c : Int) + dd.2).toNat = true
      · rw [if_pos hcond]
        refine le_trans (ih _) ?goal
        obtain ⟨h1, h2, h3, h4, h5, -⟩ := hcond
        have hmem : ((((r : Int) + dd.1).toNat, ((c : Int) + dd.2).toNat) : Nat × Nat)
            ∈ gridCellsFinset height width \ p.1 := by
          rw [Finset.mem_sdiff]
          refine ⟨?g1, h5⟩
          rw [gridCellsFinset, Finset.mem_product]
          simp only [Finset.mem_range]
          constructor
          · omega
          · omega
        have hset : gridCellsFinset height width \
              insert ((((r : Int) + dd.1).toNat, ((c : Int) + dd.2).toNat)) p.1
            = (gridCellsFinset height width \ p.1).erase
                ((((r : Int) + dd.1).toNat, ((c : Int) + dd.2).toNat)) := by
          ext x
          simp only [Finset.mem_sdiff, Finset.mem_insert, Finset.mem_erase]
          tauto
        have hcard : ((gridCellsFinset height width \ p.1).erase
              ((((r : Int) + dd.1).toNat, ((c : Int) + dd.2).toNat))).card
            = (gridCellsFinset height width \ p.1).card - 1 :=
          Finset.card_erase_of_mem hmem
        have hpos : 0 < (gridCellsFinset height width \ p.1).card :=
          Finset.card_pos.mpr ⟨_, hmem⟩
        simp only [hset, hcard, List.length_append, List.length_cons, List.length_nil]
        omega
      · rw [if_neg hcond]
        exact ih p
  have h := key
    (fun nr nc => avail nr nc &&
      (((if avail r c = true ∧ (g.cells r c).letter = none
          then g.setLetter r c (fillNoise r c) else g).cells nr nc).letter ==
        none))
    neighborDirs4 (visited, rest)
  have hl : ((r, c, dist) :: rest).length = rest.length + 1 := List.length_cons _ _
  dsimp only at h
  omega

/-- `floodFillWithRandomLetters(grid, row, col, availablePositions)`; the grid's
dimensions are read once at entry, as in the source. -/
def floodFillWithRandomLetters (fillNoise : Nat → Nat → Char) (g : Grid)
    (row col : Nat) (avail : Mask) : Grid :=
  floodFillLoop fillNoise g.height g.width avail [(row, col, 0)] {(row, col)} g

/-- A candidate word from the external word supplier (`WordWithHint`). -/
structure GenWord where
  word : List Char
  hint : String
deriving DecidableEq, Repr

/-- Fixed data of one `newPlacementAlgorithmWithUpdates` run: the mask, the word
supplier (indexed by call count; `none` models both a thrown supplier error and an
empty batch, which the source treats identically), the flood-fill letter oracle,
`totalAvailableSpaces`, and the pre-computed `smallestWordLength`. -/
structure LoopCtx where
  avail : Mask
  supplier : Nat → Option GenWord
  fillNoise : Nat → Nat → Char
  totalAvailableSpaces : Nat
  smallestWordLength : Nat

/-- The mutable state of the `newPlacementAlgorithmWithUpdates` while-loop. -/
structure LState where
  grid : Grid
  allWords : List WordSearchWord
  visited : Finset (Nat × Nat)
  curRow : Nat
  curCol : Nat
  orient : Orientation
  processed : Nat
  calls : Nat

/-- In-place mutation of a placed entry (`word.placed = true; word.startRow = …`):
the source mutates the array element by object identity; here the first structurally
equal occurrence is updated. -/
def markPlaced (l : List WordSearchWord) (target : WordSearchWord) (r c : Nat)
    (d : Direction) : List WordSearchWord :=
  l.set (l.indexOf target)
    { target with
      placed := true
      startRow := (r : Int)
      startCol := (c : Int)
      direction := d }

/-- `sortedWords[0]?.word.length || 1`: the length of the shortest initial word,
with both "no words" and "empty word" falling back to 1 (JavaScript `0 || 1`). -/
def smallestWordLengthOf (words : List WordSearchWord) : Nat :=
  match (sortBy (fun a b => a.word.length ≤ b.word.length) words).head? with
  | none => 1
  | some w => if w.word.length = 0 then 1 else w.word.length

/-- The initial-position scan of `newPlacementAlgorithmWithUpdates`: the first
available empty cell in row-major order, defaulting to `(0, 0)`. -/
def firstFreeCell (g : Grid) (avail : Mask) : Nat × Nat :=
  (((List.range g.height).flatMap fun r => (List.range g.width).map fun c => (r, c)).find?
    fun rc => avail rc.1 rc.2 && ((g.cells rc.1 rc.2).letter == none)).getD (0, 0)

/-- Loop entry state of `newPlacementAlgorithmWithUpdates`. -/
def newPlacementInit (g : Grid) (words : List WordSearchWord) (avail : Mask) : LState :=
  ⟨g, words, ∅, (firstFreeCell g avail).1, (firstFreeCell g avail).2,
    Orientation.horizontal, 0, 0⟩

/-- The word-generation block of the coverage loop (executed when no known word
fits): compare placed characters against the 40%-coverage target (the source
multiplies by the float constant `0.4`; only the comparison outcome matters here),
and if under target with room for at least 3 characters, consult the supplier,
truncate an over-long word to `idealLength` upper-cased, push it as a new unplaced
entry, and attempt to place it immediately at the current position.  A `none`
supplier answer (thrown error or empty batch) leaves the words unchanged. -/
def generateWordAttempt (ctx : LoopCtx) (st1 : LState) (curRow curCol : Nat)
    (lengths : ContiguousLength) (maxLength : Nat) : LState :=
  let placedCharacters :=
    ((st1.allWords.filter fun w => w.placed).map fun w => w.word.length).sum
  let targetCharacters := 2 * ctx.totalAvailableSpaces / 5
  if placedCharacters < targetCharacters ∧ 3 ≤ maxLength then
    let idealLength := min maxLength 8
    match ctx.supplier st1.calls with
    | none => { st1 with calls := st1.calls + 1 }
    | some gw =>
      let selected : GenWord :=
        if idealLength < gw.word.length then
          ⟨(gw.word.take idealLength).map Char.toUpper, gw.hint⟩
        else gw
      let newWord : WordSearchWord :=
        ⟨selected.word, selected.hint, false, 0, 0, Direction.horizontal⟩
      let st3 : LState := { st1 with
        calls := st1.calls + 1
        allWords := st1.allWords ++ [newWord] }
      let dir := getBestDirectionForWord newWord lengths st3.orient
      if canPlaceWord newWord.word (curRow : Int) (curCol : Int) dir st3.grid
          ctx.avail then
        { st3 with
          grid := placeWordInGrid newWord.word (curRow : Int) (curCol : Int) dir
            st3.grid
          allWords := markPlaced st3.allWords newWord curRow curCol dir
          orient := getNextOrientation st3.orient }
      else st3
  else st1

/-- The biggest-suitable-word placement block of the coverage loop: pick the best
direction, and place the word if `canPlaceWord` allows it at the current position
(on failure the state is unchanged apart from the later `processedWords++`). -/
def placeSuitableAttempt (ctx : LoopCtx) (st1 : LState) (curRow curCol : Nat)
    (lengths : ContiguousLength) (biggestWord : WordSearchWord) : LState :=
  let dir := getBestDirectionForWord biggestWord lengths st1.orient
  if canPlaceWord biggestWord.word (curRow : Int) (curCol : Int) dir st1.grid
      ctx.avail then
    { st1 with
      grid := placeWordInGrid biggestWord.word (curRow : Int) (curCol : Int) dir
        st1.grid
      allWords := markPlaced st1.allWords biggestWord curRow curCol dir
      orient := getNextOrientation st1.orient }
  else st1

/-- One iteration of the `while (processedWords < allWords.length)` loop of
`newPlacementAlgorithmWithUpdates`.  `Sum.inl` is a `continue` with the next state;
`Sum.inr` is a loop exit (`break` or the loop condition failing), carrying the final
state.  The branches mirror the source: the visited-position skip, the
contiguous-length check with its flood-fill-then-break case, the word-generation
branch (`generateWordAttempt`), and the placement of the biggest suitable word
(`placeSuitableAttempt`) followed by `processedWords++` and the move to the nearest
empty neighbor. -/
def newPlacementStep (ctx : LoopCtx) (st : LState) : LState ⊕ LState :=
  if st.processed < st.allWords.length then
    if (st.curRow, st.curCol) ∈ st.visited then
      match findNearestEmptyNeighbor st.curRow st.curCol st.grid ctx.avail st.visited with
      | none => Sum.inr st
      | some p => Sum.inl { st with curRow := p.1, curCol := p.2 }
    else
      let st1 : LState := { st with visited := insert (st.curRow, st.curCol) st.visited }
      let lengths := findContiguousLengths st.curRow st.curCol st1.grid ctx.avail
      let maxLength := max (max lengths.horizontal lengths.vertical)
        (max lengths.diagonalDown lengths.diagonalUp)
      if maxLength < ctx.smallestWordLength then
        if maxLength < 3 then
          Sum.inr { st1 with
            grid := floodFillWithRandomLetters ctx.fillNoise st1.grid st.curRow
              st.curCol ctx.avail }
        else Sum.inr st1
      else
        match findSuitableWords (st1.allWords.filter fun w => !w.placed) lengths with
        | [] =>
          let st2 := generateWordAttempt ctx st1 st.curRow st.curCol lengths maxLength
          match findNearestEmptyNeighbor st.curRow st.curCol st2.grid ctx.avail
              st2.visited with
          | none => Sum.inr st2
          | some p => Sum.inl { st2 with curRow := p.1, curCol := p.2 }
        | biggestWord :: _ =>
          let st3 : LState := { placeSuitableAttempt ctx st1 st.curRow st.curCol
            lengths biggestWord with processed := st1.processed + 1 }
          match findNearestEmptyNeighbor st.curRow st.curCol st3.grid ctx.avail
              st3.visited with
          | none => Sum.inr st3
          | some p => Sum.inl { st3 with curRow := p.1, curCol := p.2 }
  else Sum.inr st

/-- Run the loop for at most `fuel` iterations; `some` is the final state at a loop
exit, `none` means the fuel ran out first. -/
def runFuel (ctx : LoopCtx) : Nat → LState → Option LState
  | 0, _ => none
  | fuel + 1, st =>
    match newPlacementStep ctx st with
    | Sum.inr fin => some fin
    | Sum.inl st' => runFuel ctx fuel st'

/-- `newPlacementAlgorithmWithUpdates(grid, words, availablePositions, set,
totalAvailableSpaces)`: initial scan, pre-computed smallest word length, and the
loop, with fuel `2·height·width + 2` (shown sufficient by the termination
theorem). -/
def newPlacementAlgorithmWithUpdates (supplier : Nat → Option GenWord)
    (fillNoise : Nat → Nat → Char) (g : Grid) (words : List WordSearchWord)
    (avail : Mask) (totalAvailableSpaces : Nat) : Option LState :=
  runFuel ⟨avail, supplier, fillNoise, totalAvailableSpaces, smallestWordLengthOf words⟩
    (2 * g.height * g.width + 2) (newPlacementInit g words avail)

/-- Puzzle-generation state transitions after mask ingestion.  Each constructor is
one grid/word mutation the engine performs: `placeAt` is a `canPlaceWord`-guarded
`placeWordInGrid` together with the entry's placement-record update (both placement
sites in the source are of this shape); `addWord` is the push of a freshly supplied,
not-yet-placed entry; `fill` is a single noise-letter write into an empty
mask-available cell (the writes of `fillEmptySpacesWithUpdates` and
`floodFillWithRandomLetters` are all of this shape). -/
structure PState where
  grid : Grid
  words : List WordSearchWord

/-- One engine transition (see `PState`). -/
inductive PStep (avail : Mask) : PState → PState → Prop
  | placeAt (st : PState) (i : Nat) (hi : i < st.words.length) (sr sc : Int)
      (d : Direction)
      (hun : (st.words.getD i default).placed = false)
      (hcan : canPlaceWord (st.words.getD i default).word sr sc d st.grid avail = true) :
      PStep avail st
        ⟨placeWordInGrid (st.words.getD i default).word sr sc d st.grid,
          st.words.set i { st.words.getD i default with
            placed := true
            startRow := sr
            startCol := sc
            direction := d }⟩
  | addWord (st : PState) (e : WordSearchWord) (he : e.placed = false) :
      PStep avail st ⟨st.grid, st.words ++ [e]⟩
  | fill (st : PState) (r c : Nat) (ch : Char) (hmask : avail r c = true)
      (hempty : (st.grid.cells r c).letter = none) :
      PStep avail st ⟨st.grid.setLetter r c ch, st.words⟩

/-- Reachability by engine transitions. -/
def PReaches (avail : Mask) : PState → PState → Prop :=
  Relation.ReflTransGen (PStep avail)

/-- The `gridWidth === 0 || gridHeight === 0` guard of `generatePuzzle`, followed by
the empty-grid construction `Array(gridHeight).fill(null).map(() =>
Array(gridWidth)…)`: a negative dimension makes the corresponding `Array(n)` call
throw a `RangeError("Invalid array length")`, which `generatePuzzle`'s catch block
surfaces; the nested `Array(gridWidth)` only runs when at least one row exists. -/
def generatePuzzleStart (gridWidth gridHeight : Int) :
    Except String (List (List GridCell)) :=
  if gridWidth = 0 ∨ gridHeight = 0 then
    Except.error "Grid dimensions not set. Please set paper dimensions first."
  else if gridHeight < 0 then Except.error "Invalid array length"
  else if gridWidth < 0 then Except.error "Invalid array length"
  else Except.ok (List.replicate gridHeight.toNat (List.replicate gridWidth.toNat emptyCell))

/-- The store fields `generatePuzzle` touches before any placement: the stored grid
and the error field. -/
structure StoreLike where
  grid : List (List GridCell)
  error : Option String
deriving Repr

/-- Outcome of `generatePuzzle`'s pre-placement phase on the store: on the zero
guard or an `Array` length exception the error is recorded (early return or catch
block) and the stored grid is left untouched; otherwise the fresh empty grid is
stored and generation proceeds. -/
def runGeneratePhase1 (st : StoreLike) (gridWidth gridHeight : Int) : StoreLike :=
  match generatePuzzleStart gridWidth gridHeight with
  | Except.error e => ⟨st.grid, some e⟩
  | Except.ok g => ⟨g, none⟩

/-- Per-cell condition checked by iteration `i` of `canPlaceWord` for character
`ch`: in bounds, mask-available, and empty or already holding exactly `ch`. -/
def okAt (g : Grid) (avail : Mask) (sr sc : Int) (d : Direction) (i : Nat)
    (ch : Char) : Prop :=
  inBoundsRC g (rowAt sr d i) (colAt sc d i) = true ∧
  avail (rowAt sr d i).toNat (colAt sc d i).toNat = true ∧
  (letterAt g (rowAt sr d i) (colAt sc d i) = none ∨
    letterAt g (rowAt sr d i) (colAt sc d i) = some ch)

/-- Consistency of one placed entry with the grid: walking the word from its
recorded start along its recorded direction stays in bounds, on mask-available
cells, and finds exactly the word's letters. -/
def PlacedConsistent (avail : Mask) (g : Grid) (e : WordSearchWord) : Prop :=
  ∀ i : Nat, i < e.word.length →
    inBoundsRC g (rowAt e.startRow e.direction i) (colAt e.startCol e.direction i) = true ∧
    avail (rowAt e.startRow e.direction i).toNat
      (colAt e.startCol e.direction i).toNat = true ∧
    letterAt g (rowAt e.startRow e.direction i) (colAt e.startCol e.direction i)
      = some (e.word.getD i 'A')

/-- All placed entries are consistent with the grid. -/
def PInv (avail : Mask) (st : PState) : Prop :=
  ∀ e, e ∈ st.words → e.placed = true → PlacedConsistent avail st.grid e

/-- Loop measure of the coverage algorithm: twice the number of in-grid cells not
yet in `visitedPositions`, plus one when the current position is already visited. -/
def lMeasure (st : LState) : Nat :=
  2 * ((gridCellsFinset st.grid.height st.grid.width) \ st.visited).card +
    (if (st.curRow, st.curCol) ∈ st.visited then 1 else 0)

theorem inBoundsRC_iff (g : Grid) (r c : Int) :
    inBoundsRC g r c = true ↔
      0 ≤ r ∧ r < (g.height : Int) ∧ 0 ≤ c ∧ c < (g.width : Int) := by
  simp [inBoundsRC]

@[simp] theorem setCell_height (g : Grid) (r c : Nat) (cell : GridCell) :
    (g.setCell r c cell).height = g.height := rfl

@[simp] theorem setCell_width (g : Grid) (r c : Nat) (cell : GridCell) :
    (g.setCell r c cell).width = g.width := rfl

@[simp] theorem setLetter_height (g : Grid) (r c : Nat) (ch : Char) :
    (g.setLetter r c ch).height = g.height := rfl

@[simp] theorem setLetter_width (g : Grid) (r c : Nat) (ch : Char) :
    (g.setLetter r c ch).width = g.width := rfl

theorem setCell_cells_self (g : Grid) (r c : Nat) (cell : GridCell) :
    (g.setCell r c cell).cells r c = cell := by
  simp [Grid.setCell]

theorem setCell_cells_of_ne (g : Grid) (r c : Nat) (cell : GridCell) (r' c' : Nat)
    (h : ¬(r' = r ∧ c' = c)) : (g.setCell r c cell).cells r' c' = g.cells r' c' := by
  simp [Grid.setCell, h]

@[simp] theorem placeLetterStep_height (wid : Nat) (g : Grid) (r c : Int) (ch : Char) :
    (placeLetterStep wid g r c ch).height = g.height := by
  rw [placeLetterStep]
  rcases h : (cellAt g r c).letter with - | e
  · rfl
  · dsimp only
    split
    · rfl
    · rfl

@[simp] theorem placeLetterStep_width (wid : Nat) (g : Grid) (r c : Int) (ch : Char) :
    (placeLetterStep wid g r c ch).width = g.width := by
  rw [placeLetterStep]
  rcases h : (cellAt g r c).letter with - | e
  · rfl
  · dsimp only
    split
    · rfl
    · rfl

@[simp] theorem placeWordInGridFrom_height (wid : Nat) (sr sc : Int) (d : Direction) :
    ∀ (rest : List Char) (i : Nat) (g : Grid),
      (placeWordInGridFrom wid sr sc d i rest g).height = g.height := by
  intro rest
  induction rest with
  | nil => intro i g; rfl
  | cons ch rest ih =>
    intro i g
    rw [placeWordInGridFrom, ih, placeLetterStep_height]

@[simp] theorem placeWordInGridFrom_width (wid : Nat) (sr sc : Int) (d : Direction) :
    ∀ (rest : List Char) (i : Nat) (g : Grid),
      (placeWordInGridFrom wid sr sc d i rest g).width = g.width := by
  intro rest
  induction rest with
  | nil => intro i g; rfl
  | cons ch rest ih =>
    intro i g
    rw [placeWordInGridFrom, ih, placeLetterStep_width]

@[simp] theorem placeWordInGrid_height (word : List Char) (sr sc : Int)
    (d : Direction) (g : Grid) : (placeWordInGrid word sr sc d g).height = g.height :=
  placeWordInGridFrom_height _ _ _ _ _ _ _

@[simp] theorem placeWordInGrid_width (word : List Char) (sr sc : Int)
    (d : Direction) (g : Grid) : (placeWordInGrid word sr sc d g).width = g.width :=
  placeWordInGridFrom_width _ _ _ _ _ _ _

theorem canPlaceWordFrom_iff (g : Grid) (avail : Mask) (sr sc : Int) (d : Direction) :
    ∀ (rest : List Char) (i : Nat),
      canPlaceWordFrom g avail sr sc d i rest = true ↔
        ∀ j, j < rest.length → okAt g avail sr sc d (i + j) (rest.getD j 'A') := by
  intro rest
  induction rest with
  | nil =>
    intro i
    simp [canPlaceWordFrom]
  | cons ch rest ih =>
    intro i
    have hsucc : ∀ (P : Nat → Char → Prop),
        (P (i + 0) ((ch :: rest).getD 0 'A') ∧
          ∀ j, j < rest.length → P ((i + 1) + j) (rest.getD j 'A')) ↔
        (∀ j, j < (ch :: rest).length → P (i + j) ((ch :: rest).getD j 'A')) := by
      intro P
      constructor
      · rintro ⟨h0, hs⟩ j hj
        rcases j with - | j
        · exact h0
        · have h := hs j (by simpa using hj)
          have heq : i + 1 + j = i + (j + 1) := by omega
          rw [heq] at h
          exact h
      · intro h
        refine ⟨h 0 (by simp), ?tail⟩
        intro j hj
        have hh := h (j + 1) (by simpa using hj)
        have heq : i + (j + 1) = i + 1 + j := by omega
        rw [heq] at hh
        exact hh
    rw [canPlaceWordFrom]
    by_cases hb : rowAt sr d i < 0 ∨ (g.height : Int) ≤ rowAt sr d i ∨
        colAt sc d i < 0 ∨ (g.width : Int) ≤ colAt sc d i
    · rw [if_pos hb]
      simp only [Bool.false_eq_true, false_iff]
      intro hall
      have h0 := hall 0 (by simp)
      rw [okAt] at h0
      obtain ⟨hbnd, -, -⟩ := h0
      rw [inBoundsRC_iff] at hbnd
      simp only [Nat.add_zero] at hbnd
      rcases hb with h | h | h | h <;> omega
    · rw [if_neg hb]
      by_cases hm : avail (rowAt sr d i).toNat (colAt sc d i).toNat = false
      · rw [if_pos hm]
        simp only [Bool.false_eq_true, false_iff]
        intro hall
        have h0 := hall 0 (by simp)
        rw [okAt] at h0
        obtain ⟨-, hmask, -⟩ := h0
        simp only [Nat.add_zero] at hmask
        rw [hmask] at hm
        exact Bool.true_eq_false.mp hm
      · rw [if_neg hm]
        have hok0 : okAt g avail sr sc d (i + 0) ((ch :: rest).getD 0 'A') ↔
            (letterAt g (rowAt sr d i) (colAt sc d i) = none ∨
              letterAt g (rowAt sr d i) (colAt sc d i) = some ch) := by
          rw [okAt]
          simp only [Nat.add_zero, List.getD_cons_zero]
          constructor
          · rintro ⟨-, -, h⟩
            exact h
          · intro h
            refine ⟨?b1, ?b2, h⟩
            · rw [inBoundsRC_iff]
              push_neg at hb
              omega
            · simpa using hm
        rw [← hsucc (okAt g avail sr sc d), hok0, ← ih (i + 1)]
        rcases hl : letterAt g (rowAt sr d i) (colAt sc d i) with - | e
        · dsimp only
          simp
        · dsimp only
          by_cases he : e = ch
          · subst he
            rw [if_neg (by simp)]
            simp
          · rw [if_pos (by simpa using he)]
            simp [he]

theorem canPlaceWord_iff_validPosExact (word : List Char) (sr sc : Int)
    (d : Direction) (g : Grid) (avail : Mask) :
    canPlaceWord word sr sc d g avail = true ↔ ValidPosExact word sr sc d g avail := by
  rw [canPlaceWord, canPlaceWordFrom_iff]
  constructor
  · intro h i hi
    have := h i hi
    rw [okAt] at this
    simpa using this
  · intro h j hj
    have := h j hj
    rw [okAt]
    simpa using this

theorem natPos_inj (g : Grid) (sr sc : Int) (d : Direction) (i j : Nat)
    (hi : inBoundsRC g (rowAt sr d i) (colAt sc d i) = true)
    (hj : inBoundsRC g (rowAt sr d j) (colAt sc d j) = true)
    (hne : i ≠ j) :
    ¬((rowAt sr d i).toNat = (rowAt sr d j).toNat ∧
      (colAt sc d i).toNat = (colAt sc d j).toNat) := by
  rw [inBoundsRC_iff] at hi hj
  rintro ⟨h1, h2⟩
  cases d <;>
    (simp only [rowAt, colAt, Direction.dRow, Direction.dCol] at hi hj h1 h2; omega)

theorem placeLetterStep_cells_of_ne (wid : Nat) (g : Grid) (rr cc : Int) (ch : Char)
    (r c : Nat) (h : ¬(rr.toNat = r ∧ cc.toNat = c)) :
    (placeLetterStep wid g rr cc ch).cells r c = g.cells r c := by
  rw [placeLetterStep]
  rcases (cellAt g rr cc).letter with - | e
  · dsimp only
    exact setCell_cells_of_ne _ _ _ _ _ _ (by tauto)
  · dsimp only
    split
    · exact setCell_cells_of_ne _ _ _ _ _ _ (by tauto)
    · rfl

theorem placeLetterStep_writes (wid : Nat) (g : Grid) (rr cc : Int) (ch : Char)
    (h : (cellAt g rr cc).letter = none ∨ (cellAt g rr cc).letter = some ch) :
    ((placeLetterStep wid g rr cc ch).cells rr.toNat cc.toNat).letter = some ch := by
  rw [placeLetterStep]
  rcases hE : (cellAt g rr cc).letter with - | e
  · dsimp only
    rw [setCell_cells_self]
  · dsimp only
    rcases h with h | h
    · rw [hE] at h
      exact Option.noConfusion h
    · rw [hE] at h
      have he : e = ch := Option.some.inj h
      rw [if_pos he, setCell_cells_self]

theorem placeLetterStep_letter_mono (wid : Nat) (g : Grid) (rr cc : Int) (ch : Char)
    (r c : Nat) (l : Char) (h : (g.cells r c).letter = some l) :
    ((placeLetterStep wid g rr cc ch).cells r c).letter = some l := by
  by_cases hrc : rr.toNat = r ∧ cc.toNat = c
  · obtain ⟨h1, h2⟩ := hrc
    subst h1
    subst h2
    have hcell : (cellAt g rr cc).letter = some l := h
    rw [placeLetterStep, hcell]
    dsimp only
    split
    · rename_i he
      rw [setCell_cells_self, he]
    · exact h
  · rw [placeLetterStep_cells_of_ne _ _ _ _ _ _ _ hrc]
    exact h

theorem placeWordInGridFrom_cells_of_notin (wid : Nat) (sr sc : Int) (d : Direction) :
    ∀ (rest : List Char) (i : Nat) (g : Grid) (r c : Nat),
      (∀ j, j < rest.length →
        ¬((rowAt sr d (i + j)).toNat = r ∧ (colAt sc d (i + j)).toNat = c)) →
      (placeWordInGridFrom wid sr sc d i rest g).cells r c = g.cells r c := by
  intro rest
  induction rest with
  | nil =>
    intro i g r c h
    rfl
  | cons ch rest ih =>
    intro i g r c h
    rw [placeWordInGridFrom]
    rw [ih (i + 1) _ r c ?tail]
    case tail =>
      intro j hj
      have hh := h (j + 1) (by simpa using hj)
      have heq : i + (j + 1) = i + 1 + j := by omega
      rw [heq] at hh
      exact hh
    refine placeLetterStep_cells_of_ne _ _ _ _ _ _ _ ?head
    have hh := h 0 (by simp)
    simpa using hh

theorem placeWordInGridFrom_letter_mono (wid : Nat) (sr sc : Int) (d : Direction) :
    ∀ (rest : List Char) (i : Nat) (g : Grid) (r c : Nat) (l : Char),
      (g.cells r c).letter = some l →
      ((placeWordInGridFrom wid sr sc d i rest g).cells r c).letter = some l := by
  intro rest
  induction rest with
  | nil =>
    intro i g r c l h
    exact h
  | cons ch rest ih =>
    intro i g r c l h
    rw [placeWordInGridFrom]
    exact ih (i + 1) _ r c l (placeLetterStep_letter_mono _ _ _ _ _ _ _ _ h)

theorem placeWordInGrid_letter_mono (word : List Char) (sr sc : Int) (d : Direction)
    (g : Grid) (r c : Nat) (l : Char) (h : (g.cells r c).letter = some l) :
    ((placeWordInGrid word sr sc d g).cells r c).letter = some l :=
  placeWordInGridFrom_letter_mono _ _ _ _ _ _ _ _ _ _ h

theorem canPlaceWordFrom_congr (g' g : Grid) (avail : Mask) (sr sc : Int)
    (d : Direction) (hh : g'.height = g.height) (hw : g'.width = g.width) :
    ∀ (rest : List Char) (i : Nat),
      (∀ j, j < rest.length →
        letterAt g' (rowAt sr d (i + j)) (colAt sc d (i + j))
          = letterAt g (rowAt sr d (i + j)) (colAt sc d (i + j))) →
      canPlaceWordFrom g' avail sr sc d i rest = canPlaceWordFrom g avail sr sc d i rest := by
  intro rest
  induction rest with
  | nil =>
    intro i h
    rfl
  | cons ch rest ih =>
    intro i h
    rw [canPlaceWordFrom, canPlaceWordFrom, hh, hw]
    have h0 : letterAt g' (rowAt sr d i) (colAt sc d i)
        = letterAt g (rowAt sr d i) (colAt sc d i) := by
      have hh0 := h 0 (by simp)
      simpa using hh0
    rw [h0]
    have hrec : canPlaceWordFrom g' avail sr sc d (i + 1) rest
        = canPlaceWordFrom g avail sr sc d (i + 1) rest := by
      refine ih (i + 1) ?tail
      intro j hj
      have hh1 := h (j + 1) (by simpa using hj)
      have heq : i + (j + 1) = i + 1 + j := by omega
      rw [heq] at hh1
      exact hh1
    rw [hrec]

theorem placeWordInGridFrom_writes (wid : Nat) (sr sc : Int) (d : Direction) :
    ∀ (rest : List Char) (i : Nat) (g : Grid) (avail : Mask),
      canPlaceWordFrom g avail sr sc d i rest = true →
      ∀ j, j < rest.length →
        ((placeWordInGridFrom wid sr sc d i rest g).cells
            (rowAt sr d (i + j)).toNat (colAt sc d (i + j)).toNat).letter
          = some (rest.getD j 'A') := by
  intro rest
  induction rest with
  | nil =>
    intro i g avail hcan j hj
    exact absurd hj (by simp)
  | cons ch rest ih =>
    intro i g avail hcan j hj
    have hall := (canPlaceWordFrom_iff g avail sr sc d (ch :: rest) i).mp hcan
    have hok0 := hall 0 (by simp)
    rw [okAt] at hok0
    simp only [Nat.add_zero, List.getD_cons_zero] at hok0
    obtain ⟨hb0, -, hl0⟩ := hok0
    have hbnds : ∀ j', j' < (ch :: rest).length →
        inBoundsRC g (rowAt sr d (i + j')) (colAt sc d (i + j')) = true := by
      intro j' hj'
      exact (hall j' hj').1
    have hmono : ∀ j', j' < rest.length →
        letterAt (placeLetterStep wid g (rowAt sr d i) (colAt sc d i) ch)
            (rowAt sr d (i + 1 + j')) (colAt sc d (i + 1 + j'))
          = letterAt g (rowAt sr d (i + 1 + j')) (colAt sc d (i + 1 + j')) := by
      intro j' hj'
      rw [letterAt, letterAt, cellAt, cellAt]
      rw [placeLetterStep_cells_of_ne]
      have hi1 : i + 1 + j' = i + (j' + 1) := by omega
      refine natPos_inj g sr sc d i (i + 1 + j') hb0 ?bb (by omega)
      rw [hi1]
      exact hbnds (j' + 1) (by simpa using hj')
    have hcanrest : canPlaceWordFrom
        (placeLetterStep wid g (rowAt sr d i) (colAt sc d i) ch) avail sr sc d (i + 1)
        rest = true := by
      rw [canPlaceWordFrom_congr _ g avail sr sc d (by simp) (by simp) rest (i + 1) hmono]
      rw [canPlaceWordFrom_iff]
      intro j' hj'
      have hh := hall (j' + 1) (by simpa using hj')
      have heq : i + (j' + 1) = i + 1 + j' := by omega
      rw [heq] at hh
      simpa using hh
    rw [placeWordInGridFrom]
    rcases j with - | j
    · rw [placeWordInGridFrom_cells_of_notin wid sr sc d rest (i + 1) _
        (rowAt sr d (i + 0)).toNat (colAt sc d (i + 0)).toNat ?notin]
      case notin =>
        intro j' hj'
        have hi1 : i + 1 + j' = i + (j' + 1) := by omega
        refine natPos_inj g sr sc d (i + 1 + j') (i + 0) ?ba (by simpa using hb0) (by omega)
        rw [hi1]
        exact hbnds (j' + 1) (by simpa using hj')
      simp only [Nat.add_zero, List.getD_cons_zero]
      refine placeLetterStep_writes wid g _ _ ch ?hl
      rw [cellAt]
      rw [letterAt, cellAt] at hl0
      exact hl0
    · have hih := ih (i + 1) _ avail hcanrest j (by simpa using hj)
      have heq : i + (j + 1) = i + 1 + j := by omega
      rw [heq]
      simpa using hih

theorem placeWordInGrid_writes (word : List Char) (sr sc : Int) (d : Direction)
    (g : Grid) (avail : Mask) (hcan : canPlaceWord word sr sc d g avail = true) :
    ∀ i, i < word.length →
      ((placeWordInGrid word sr sc d g).cells
          (rowAt sr d i).toNat (colAt sc d i).toNat).letter = some (word.getD i 'A') := by
  intro i hi
  have h := placeWordInGridFrom_writes word.length sr sc d word 0 g avail hcan i hi
  simpa using h

theorem calculateOverlapFrom_le (g : Grid) (sr sc : Int) (d : Direction) :
    ∀ (rest : List Char) (i : Nat), calculateOverlapFrom g sr sc d i rest ≤ rest.length := by
  intro rest
  induction rest with
  | nil =>
    intro i
    exact Nat.le_refl 0
  | cons ch rest ih =>
    intro i
    rw [calculateOverlapFrom]
    have := ih (i + 1)
    split
    · simp only [List.length_cons]
      omega
    · simp only [List.length_cons, Nat.zero_add]
      omega

theorem calculateOverlapFrom_eq_length_iff (g : Grid) (sr sc : Int) (d : Direction) :
    ∀ (rest : List Char) (i : Nat),
      calculateOverlapFrom g sr sc d i rest = rest.length ↔
        ∀ j, j < rest.length →
          letterAt g (rowAt sr d (i + j)) (colAt sc d (i + j)) = some (rest.getD j 'A') := by
  intro rest
  induction rest with
  | nil =>
    intro i
    simp [calculateOverlapFrom]
  | cons ch rest ih =>
    intro i
    rw [calculateOverlapFrom]
    split
    · rename_i hmatch
      rw [List.length_cons]
      have hiff := ih (i + 1)
      constructor
      · intro hlen j hj
        rcases j with - | j
        · simpa using hmatch
        · have hrec : calculateOverlapFrom g sr sc d (i + 1) rest = rest.length := by omega
          have := (hiff.mp hrec) j (by simpa using hj)
          have heq : i + (j + 1) = i + 1 + j := by omega
          rw [heq]
          simpa using this
      · intro hall
        have hrec : calculateOverlapFrom g sr sc d (i + 1) rest = rest.length := by
          rw [hiff]
          intro j hj
          have := hall (j + 1) (by simpa using hj)
          have heq : i + (j + 1) = i + 1 + j := by omega
          rw [heq] at this
          simpa using this
        omega
    · rename_i hmatch
      have hle := calculateOverlapFrom_le g sr sc d rest (i + 1)
      simp only [List.length_cons, Nat.zero_add]
      constructor
      · intro hlen
        omega
      · intro hall
        exfalso
        have := hall 0 (by simp)
        simp only [Nat.add_zero, List.getD_cons_zero] at this
        exact hmatch this

theorem calculateOverlap_eq_length_iff (word : List Char) (sr sc : Int) (d : Direction)
    (g : Grid) :
    calculateOverlap word sr sc d g = word.length ↔ FullMatchAt word sr sc d g := by
  rw [calculateOverlap, calculateOverlapFrom_eq_length_iff, FullMatchAt]
  constructor
  · intro h i hi
    simpa using h i hi
  · intro h j hj
    simpa using h j hj

theorem calculateOverlap_le (word : List Char) (sr sc : Int) (d : Direction) (g : Grid) :
    calculateOverlap word sr sc d g ≤ word.length :=
  calculateOverlapFrom_le g sr sc d word 0

theorem setLetter_letter_mono (g : Grid) (r c : Nat) (ch : Char)
    (hempty : (g.cells r c).letter = none) (r' c' : Nat) (l : Char)
    (h : (g.cells r' c').letter = some l) :
    ((g.setLetter r c ch).cells r' c').letter = some l := by
  by_cases hrc : r' = r ∧ c' = c
  · obtain ⟨h1, h2⟩ := hrc
    subst h1
    subst h2
    rw [hempty] at h
    exact Option.noConfusion h
  · rw [Grid.setLetter, setCell_cells_of_ne _ _ _ _ _ _ hrc]
    exact h

theorem pstep_letter_mono (avail : Mask) (st st' : PState) (h : PStep avail st st')
    (r c : Nat) (l : Char) (hl : (st.grid.cells r c).letter = some l) :
    (st'.grid.cells r c).letter = some l := by
  cases h with
  | placeAt i hi sr sc d hun hcan =>
    exact placeWordInGrid_letter_mono _ _ _ _ _ _ _ _ hl
  | addWord e he =>
    exact hl
  | fill rr cc ch hmask hempty =>
    exact setLetter_letter_mono _ _ _ _ hempty _ _ _ hl

theorem preaches_letter_mono (avail : Mask) (st st' : PState)
    (h : PReaches avail st st') (r c : Nat) (l : Char)
    (hl : (st.grid.cells r c).letter = some l) :
    (st'.grid.cells r c).letter = some l := by
  induction h with
  | refl => exact hl
  | tail hr hstep ih =>
    exact pstep_letter_mono _ _ _ hstep _ _ _ ih

theorem pstep_height_eq (avail : Mask) (st st' : PState) (h : PStep avail st st') :
    st'.grid.height = st.grid.height ∧ st'.grid.width = st.grid.width := by
  cases h with
  | placeAt i hi sr sc d hun hcan => exact ⟨by simp, by simp⟩
  | addWord e he => exact ⟨rfl, rfl⟩
  | fill rr cc ch hmask hempty => exact ⟨by simp, by simp⟩

theorem preaches_height_eq (avail : Mask) (st st' : PState)
    (h : PReaches avail st st') :
    st'.grid.height = st.grid.height ∧ st'.grid.width = st.grid.width := by
  induction h with
  | refl => exact ⟨rfl, rfl⟩
  | tail hr hstep ih =>
    have := pstep_height_eq _ _ _ hstep
    exact ⟨this.1.trans ih.1, this.2.trans ih.2⟩

theorem placeWordInGrid_cells_of_unavail (word : List Char) (sr sc : Int)
    (d : Direction) (g : Grid) (avail : Mask)
    (hcan : canPlaceWord word sr sc d g avail = true) (r c : Nat)
    (hmask : avail r c = false) :
    (placeWordInGrid word sr sc d g).cells r c = g.cells r c := by
  rw [placeWordInGrid]
  refine placeWordInGridFrom_cells_of_notin _ _ _ _ _ _ _ _ _ ?h
  intro j hj
  have hok := (canPlaceWordFrom_iff g avail sr sc d word 0).mp hcan j hj
  rw [okAt] at hok
  obtain ⟨-, hm, -⟩ := hok
  rintro ⟨h1, h2⟩
  rw [h1, h2] at hm
  rw [hm] at hmask
  exact Bool.noConfusion hmask

theorem pstep_cells_unavail (avail : Mask) (st st' : PState) (h : PStep avail st st')
    (r c : Nat) (hmask : avail r c = false) :
    st'.grid.cells r c = st.grid.cells r c := by
  cases h with
  | placeAt i hi sr sc d hun hcan =>
    exact placeWordInGrid_cells_of_unavail _ _ _ _ _ _ hcan r c hmask
  | addWord e he => rfl
  | fill rr cc ch hmask2 hempty =>
    rw [Grid.setLetter]
    refine setCell_cells_of_ne _ _ _ _ _ _ ?ne
    rintro ⟨h1, h2⟩
    rw [h1, h2] at hmask
    rw [hmask2] at hmask
    exact Bool.noConfusion hmask

theorem preaches_cells_unavail (avail : Mask) (st st' : PState)
    (h : PReaches avail st st') (r c : Nat) (hmask : avail r c = false) :
    st'.grid.cells r c = st.grid.cells r c := by
  induction h with
  | refl => rfl
  | tail hr hstep ih =>
    rw [pstep_cells_unavail _ _ _ hstep _ _ hmask, ih]

theorem inBoundsRC_eq_of_dims (g' g : Grid) (hh : g'.height = g.height)
    (hw : g'.width = g.width) (r c : Int) : inBoundsRC g' r c = inBoundsRC g r c := by
  rw [inBoundsRC, inBoundsRC, hh, hw]

theorem placedConsistent_mono (avail : Mask) (g' g : Grid)
    (hh : g'.height = g.height) (hw : g'.width = g.width)
    (hmono : ∀ r c l, (g.cells r c).letter = some l → (g'.cells r c).letter = some l)
    (e : WordSearchWord) (hcons : PlacedConsistent avail g e) :
    PlacedConsistent avail g' e := by
  intro i hi
  obtain ⟨hb, hm, hl⟩ := hcons i hi
  refine ⟨?b1, hm, ?b2⟩
  · rw [inBoundsRC_eq_of_dims g' g hh hw]
    exact hb
  · rw [letterAt, cellAt]
    rw [letterAt, cellAt] at hl
    exact hmono _ _ _ hl

theorem pstep_pinv (avail : Mask) (st st' : PState) (h : PStep avail st st')
    (hinv : PInv avail st) : PInv avail st' := by
  cases h with
  | placeAt i hi sr sc d hun hcan =>
    intro e he hp
    rcases List.mem_or_eq_of_mem_set he with hmem | heq
    · have hmono : ∀ r c l, (st.grid.cells r c).letter = some l →
          ((placeWordInGrid (st.words.getD i default).word sr sc d st.grid).cells
            r c).letter = some l := by
        intro r c l hl
        exact placeWordInGrid_letter_mono _ _ _ _ _ _ _ _ hl
      exact placedConsistent_mono avail _ _ (by simp) (by simp) hmono e (hinv e hmem hp)
    · subst heq
      intro j hj
      simp only at hj ⊢
      have hok := (canPlaceWordFrom_iff st.grid avail sr sc d
        (st.words.getD i default).word 0).mp hcan j (by simpa using hj)
      rw [okAt] at hok
      simp only [Nat.zero_add] at hok
      obtain ⟨hb, hm, -⟩ := hok
      refine ⟨?c1, hm, ?c2⟩
      · rw [inBoundsRC_eq_of_dims _ st.grid (by simp) (by simp)]
        exact hb
      · rw [letterAt, cellAt]
        exact placeWordInGrid_writes _ _ _ _ _ _ hcan j (by simpa using hj)
  | addWord e0 he0 =>
    intro e he hp
    rcases List.mem_append.mp he with hmem | hmem
    · exact hinv e hmem hp
    · have : e = e0 := by simpa using hmem
      subst this
      rw [he0] at hp
      exact Bool.noConfusion hp
  | fill rr cc ch hmask hempty =>
    intro e he hp
    have hmono : ∀ r c l, (st.grid.cells r c).letter = some l →
        ((st.grid.setLetter rr cc ch).cells r c).letter = some l := by
      intro r c l hl
      exact setLetter_letter_mono _ _ _ _ hempty _ _ _ hl
    exact placedConsistent_mono avail _ _ (by simp) (by simp) hmono e (hinv e he hp)

theorem preaches_pinv (avail : Mask) (st st' : PState) (h : PReaches avail st st')
    (hinv : PInv avail st) : PInv avail st' := by
  induction h with
  | refl => exact hinv
  | tail hr hstep ih =>
    exact pstep_pinv _ _ _ hstep ih

theorem pinv_init (avail : Mask) (g : Grid) (words0 : List WordSearchWord)
    (h0 : ∀ e, e ∈ words0 → e.placed = false) : PInv avail ⟨g, words0⟩ := by
  intro e he hp
  rw [h0 e he] at hp
  exact Bool.noConfusion hp

theorem mem_gridCellsFinset (height width a b : Nat) :
    (a, b) ∈ gridCellsFinset height width ↔ a < height ∧ b < width := by
  rw [gridCellsFinset, Finset.mem_product]
  simp [Finset.mem_range]

theorem enqueueNeighbors_measure (height width : Nat) (ok : Nat → Nat → Bool)
    (r c dist : Nat) :
    ∀ (dirs : List (Int × Int)) (p : Finset (Nat × Nat) × List (Nat × Nat × Nat)),
      2 * ((gridCellsFinset height width) \
            (enqueueNeighbors height width ok r c dist dirs p).1).card
          + (enqueueNeighbors height width ok r c dist dirs p).2.length
        ≤ 2 * ((gridCellsFinset height width) \ p.1).card + p.2.length := by
  intro dirs
  induction dirs with
  | nil =>
    intro p
    simp [enqueueNeighbors]
  | cons dd rest ih =>
    intro p
    rw [enqueueNeighbors]
    by_cases hcond : 0 ≤ (r : Int) + dd.1 ∧ (r : Int) + dd.1 < (height : Int) ∧
        0 ≤ (c : Int) + dd.2 ∧ (c : Int) + dd.2 < (width : Int) ∧
        (((r : Int) + dd.1).toNat, ((c : Int) + dd.2).toNat) ∉ p.1 ∧
        ok ((r : Int) + dd.1).toNat ((c : Int) + dd.2).toNat = true
    · rw [if_pos hcond]
      refine le_trans (ih _) ?goal
      obtain ⟨h1, h2, h3, h4, h5, -⟩ := hcond
      have hmem : ((((r : Int) + dd.1).toNat, ((c : Int) + dd.2).toNat) : Nat × Nat)
          ∈ gridCellsFinset height width \ p.1 := by
        rw [Finset.mem_sdiff]
        refine ⟨?g1, h5⟩
        rw [mem_gridCellsFinset]
        constructor
        · omega
        · omega
      have hset : gridCellsFinset height width \
            insert ((((r : Int) + dd.1).toNat, ((c : Int) + dd.2).toNat)) p.1
          = (gridCellsFinset height width \ p.1).erase
              ((((r : Int) + dd.1).toNat, ((c : Int) + dd.2).toNat)) := by
        ext x
        simp only [Finset.mem_sdiff, Finset.mem_insert, Finset.mem_erase]
        tauto
      have hcard : ((gridCellsFinset height width \ p.1).erase
            ((((r : Int) + dd.1).toNat, ((c : Int) + dd.2).toNat))).card
          = (gridCellsFinset height width \ p.1).card - 1 :=
        Finset.card_erase_of_mem hmem
      have hpos : 0 < (gridCellsFinset height width \ p.1).card :=
        Finset.card_pos.mpr ⟨_, hmem⟩
      simp only [hset, hcard, List.length_append, List.length_cons, List.length_nil]
      omega
    · rw [if_neg hcond]
      exact ih p

theorem enqueueNeighbors_queue_sub (height width : Nat) (ok : Nat → Nat → Bool)
    (r c dist : Nat) :
    ∀ (dirs : List (Int × Int)) (p : Finset (Nat × Nat) × List (Nat × Nat × Nat))
      (x : Nat × Nat × Nat),
      x ∈ (enqueueNeighbors height width ok r c dist dirs p).2 →
      x ∈ p.2 ∨ (x.1 < height ∧ x.2.1 < width ∧ 0 < x.2.2) := by
  intro dirs
  induction dirs with
  | nil =>
    intro p x hx
    exact Or.inl hx
  | cons dd rest ih =>
    intro p x hx
    rw [enqueueNeighbors] at hx
    by_cases hcond : 0 ≤ (r : Int) + dd.1 ∧ (r : Int) + dd.1 < (height : Int) ∧
        0 ≤ (c : Int) + dd.2 ∧ (c : Int) + dd.2 < (width : Int) ∧
        (((r : Int) + dd.1).toNat, ((c : Int) + dd.2).toNat) ∉ p.1 ∧
        ok ((r : Int) + dd.1).toNat ((c : Int) + dd.2).toNat = true
    · rw [if_pos hcond] at hx
      rcases ih _ x hx with hin | hb
      · rcases List.mem_append.mp hin with hin2 | hin2
        · exact Or.inl hin2
        · right
          have hx2 : x = (((r : Int) + dd.1).toNat, ((c : Int) + dd.2).toNat, dist + 1) := by
            simpa using hin2
          subst hx2
          obtain ⟨h1, h2, h3, h4, -, -⟩ := hcond
          dsimp only
          refine ⟨by omega, by omega, by omega⟩
      · exact Or.inr hb
    · rw [if_neg hcond] at hx
      exact ih p x hx

theorem bfsLoop_post (g : Grid) (avail : Mask) (height width : Nat)
    (visitedPos : Finset (Nat × Nat)) :
    ∀ (n : Nat) (q : List (Nat × Nat × Nat)) (visited : Finset (Nat × Nat)),
      2 * ((gridCellsFinset height width) \ visited).card + q.length ≤ n →
      (∀ x, x ∈ q → 0 < x.2.2 → x.1 < height ∧ x.2.1 < width) →
      ∀ p, bfsLoop g avail height width visitedPos q visited = some p →
        p.1 < height ∧ p.2 < width ∧ avail p.1 p.2 = true ∧
        (g.cells p.1 p.2).letter = none ∧ p ∉ visitedPos := by
  intro n
  induction n using Nat.strong_induction_on with
  | _ n ihn =>
    intro q visited hn hq p hsome
    match q with
    | [] =>
      rw [bfsLoop] at hsome
      exact Option.noConfusion hsome
    | (r, c, dist) :: rest =>
      rw [bfsLoop] at hsome
      by_cases hret : 0 < dist ∧ avail r c = true ∧ (g.cells r c).letter = none ∧
          (r, c) ∉ visitedPos
      · rw [if_pos hret] at hsome
        have hp : p = (r, c) := (Option.some.inj hsome).symm
        subst hp
        obtain ⟨hd, ha, hl, hv⟩ := hret
        have hb := hq (r, c, dist) (by simp) hd
        exact ⟨hb.1, hb.2, ha, hl, hv⟩
      · rw [if_neg hret] at hsome
        have hdec : 2 * ((gridCellsFinset height width) \
              (enqueueNeighbors height width (fun _ _ => true) r c dist neighborDirs8
                (visited, rest)).1).card
            + (enqueueNeighbors height width (fun _ _ => true) r c dist neighborDirs8
                (visited, rest)).2.length
            < n := by
          have hm := enqueueNeighbors_measure height width (fun _ _ => true) r c dist
            neighborDirs8 (visited, rest)
          dsimp only at hm
          have hl : ((r, c, dist) :: rest).length = rest.length + 1 := List.length_cons _ _
          omega
        refine ihn _ hdec _ _ (Nat.le_refl _) ?hq p hsome
        intro x hx hdx
        rcases enqueueNeighbors_queue_sub height width (fun _ _ => true) r c dist
            neighborDirs8 (visited, rest) x hx with hin | hb
        · dsimp only at hin
          exact hq x (List.mem_cons_of_mem _ hin) hdx
        · exact ⟨hb.1, hb.2.1⟩

theorem findNearestEmptyNeighbor_post (currentRow currentCol : Nat) (g : Grid)
    (avail : Mask) (visitedPositions : Finset (Nat × Nat)) (p : Nat × Nat)
    (h : findNearestEmptyNeighbor currentRow currentCol g avail visitedPositions
      = some p) :
    p.1 < g.height ∧ p.2 < g.width ∧ avail p.1 p.2 = true ∧
      (g.cells p.1 p.2).letter = none ∧ p ∉ visitedPositions := by
  rw [findNearestEmptyNeighbor] at h
  refine bfsLoop_post g avail g.height g.width visitedPositions
    (2 * ((gridCellsFinset g.height g.width) \
      ({(currentRow, currentCol)} : Finset (Nat × Nat))).card + 1)
    _ _ (by simp) ?inv p h
  intro x hx hdx
  have hx1 : x = (currentRow, currentCol, 0) := by simpa using hx
  subst hx1
  exact absurd hdx (by simp)

theorem lMeasure_le (st : LState) :
    lMeasure st ≤ 2 * st.grid.height * st.grid.width + 1 := by
  rw [lMeasure]
  have h1 : ((gridCellsFinset st.grid.height st.grid.width) \ st.visited).card
      ≤ (gridCellsFinset st.grid.height st.grid.width).card :=
    Finset.card_le_card (Finset.sdiff_subset)
  have h2 : (gridCellsFinset st.grid.height st.grid.width).card
      = st.grid.height * st.grid.width := by
    rw [gridCellsFinset, Finset.card_product, Finset.card_range, Finset.card_range]
  have h3 : 2 * st.grid.height * st.grid.width
      = 2 * (st.grid.height * st.grid.width) := by ring
  split
  · omega
  · omega

theorem insert_cur_card_lt (st : LState) (hrow : st.curRow < st.grid.height)
    (hcol : st.curCol < st.grid.width) (hv : (st.curRow, st.curCol) ∉ st.visited) :
    ((gridCellsFinset st.grid.height st.grid.width) \
        insert (st.curRow, st.curCol) st.visited).card
      < ((gridCellsFinset st.grid.height st.grid.width) \ st.visited).card := by
  have hmem : ((st.curRow, st.curCol) : Nat × Nat)
      ∈ gridCellsFinset st.grid.height st.grid.width \ st.visited := by
    rw [Finset.mem_sdiff, mem_gridCellsFinset]
    exact ⟨⟨hrow, hcol⟩, hv⟩
  have hset : gridCellsFinset st.grid.height st.grid.width \
        insert (st.curRow, st.curCol) st.visited
      = (gridCellsFinset st.grid.height st.grid.width \ st.visited).erase
          (st.curRow, st.curCol) := by
    ext x
    simp only [Finset.mem_sdiff, Finset.mem_insert, Finset.mem_erase]
    tauto
  rw [hset]
  exact Finset.card_erase_lt_of_mem hmem

theorem lMeasure_skip (st : LState) (p : Nat × Nat)
    (hv : (st.curRow, st.curCol) ∈ st.visited) (hp : p ∉ st.visited) :
    lMeasure { st with curRow := p.1, curCol := p.2 } < lMeasure st := by
  rw [lMeasure, lMeasure]
  dsimp only
  rw [if_pos hv, if_neg hp]
  omega

theorem lMeasure_continue (st stMid : LState) (p : Nat × Nat)
    (hh : stMid.grid.height = st.grid.height) (hw : stMid.grid.width = st.grid.width)
    (hvis : stMid.visited = insert (st.curRow, st.curCol) st.visited)
    (hrow : st.curRow < st.grid.height) (hcol : st.curCol < st.grid.width)
    (hv : (st.curRow, st.curCol) ∉ st.visited) :
    lMeasure { stMid with curRow := p.1, curCol := p.2 } < lMeasure st := by
  rw [lMeasure, lMeasure]
  dsimp only
  rw [hh, hw, hvis, if_neg hv]
  have hlt := insert_cur_card_lt st hrow hcol hv
  split
  · omega
  · omega

theorem generateWordAttempt_preserve (ctx : LoopCtx) (st1 : LState)
    (curRow curCol : Nat) (lengths : ContiguousLength) (maxLength : Nat) :
    (generateWordAttempt ctx st1 curRow curCol lengths maxLength).grid.height
        = st1.grid.height ∧
    (generateWordAttempt ctx st1 curRow curCol lengths maxLength).grid.width
        = st1.grid.width ∧
    (generateWordAttempt ctx st1 curRow curCol lengths maxLength).visited
        = st1.visited := by
  rw [generateWordAttempt]
  dsimp only
  repeat' split
  all_goals exact ⟨by simp, by simp, by simp⟩

theorem placeSuitableAttempt_preserve (ctx : LoopCtx) (st1 : LState)
    (curRow curCol : Nat) (lengths : ContiguousLength) (biggestWord : WordSearchWord) :
    (placeSuitableAttempt ctx st1 curRow curCol lengths biggestWord).grid.height
        = st1.grid.height ∧
    (placeSuitableAttempt ctx st1 curRow curCol lengths biggestWord).grid.width
        = st1.grid.width ∧
    (placeSuitableAttempt ctx st1 curRow curCol lengths biggestWord).visited
        = st1.visited := by
  rw [placeSuitableAttempt]
  repeat' split
  all_goals exact ⟨by simp, by simp, by simp⟩

theorem newPlacementStep_inl (ctx : LoopCtx) (st st' : LState)
    (hrow : st.curRow < st.grid.height) (hcol : st.curCol < st.grid.width)
    (h : newPlacementStep ctx st = Sum.inl st') :
    st'.grid.height = st.grid.height ∧ st'.grid.width = st.grid.width ∧
    st'.curRow < st.grid.height ∧ st'.curCol < st.grid.width ∧
    lMeasure st' < lMeasure st := by
  rw [newPlacementStep] at h
  by_cases h1 : st.processed < st.allWords.length
  case neg =>
    rw [if_neg h1] at h
    exact Sum.noConfusion h
  rw [if_pos h1] at h
  by_cases h2 : (st.curRow, st.curCol) ∈ st.visited
  · rw [if_pos h2] at h
    rcases hfind : findNearestEmptyNeighbor st.curRow st.curCol st.grid ctx.avail
        st.visited with - | p
    · rw [hfind] at h
      exact Sum.noConfusion h
    · rw [hfind] at h
      have hst : st' = { st with curRow := p.1, curCol := p.2 } :=
        (Sum.inl.inj h).symm
      subst hst
      have hpost := findNearestEmptyNeighbor_post _ _ _ _ _ p hfind
      exact ⟨rfl, rfl, hpost.1, hpost.2.1, lMeasure_skip st p h2 hpost.2.2.2.2⟩
  · rw [if_neg h2] at h
    dsimp only at h
    set st1 : LState := { st with visited := insert (st.curRow, st.curCol) st.visited }
      with hst1
    set L := findContiguousLengths st.curRow st.curCol st.grid ctx.avail with hL
    set M := max (max L.horizontal L.vertical) (max L.diagonalDown L.diagonalUp)
      with hM
    by_cases h3 : M < ctx.smallestWordLength
    · rw [if_pos h3] at h
      split at h
      · exact Sum.noConfusion h
      · exact Sum.noConfusion h
    · rw [if_neg h3] at h
      have hvis1 : st1.visited = insert (st.curRow, st.curCol) st.visited := by
        rw [hst1]
      have hh1 : st1.grid.height = st.grid.height := by rw [hst1]
      have hw1 : st1.grid.width = st.grid.width := by rw [hst1]
      rcases hsuit : findSuitableWords (st.allWords.filter fun w => !w.placed) L
        with - | ⟨big, tl⟩
      · rw [hsuit] at h
        dsimp only at h
        set G := generateWordAttempt ctx st1 st.curRow st.curCol L M with hG
        have hpres := generateWordAttempt_preserve ctx st1 st.curRow st.curCol L M
        rw [← hG] at hpres
        rcases hfind : findNearestEmptyNeighbor st.curRow st.curCol G.grid ctx.avail
            G.visited with - | p
        · rw [hfind] at h
          exact Sum.noConfusion h
        · rw [hfind] at h
          have hst : st' = { G with curRow := p.1, curCol := p.2 } :=
            (Sum.inl.inj h).symm
          subst hst
          have hpost := findNearestEmptyNeighbor_post _ _ _ _ _ p hfind
          have hgh : G.grid.height = st.grid.height := hpres.1.trans hh1
          have hgw : G.grid.width = st.grid.width := hpres.2.1.trans hw1
          have hgv : G.visited = insert (st.curRow, st.curCol) st.visited :=
            hpres.2.2.trans hvis1
          refine ⟨hgh, hgw, ?r1, ?r2, ?r3⟩
          · rw [← hgh]
            exact hpost.1
          · rw [← hgw]
            exact hpost.2.1
          · exact lMeasure_continue st G p hgh hgw hgv hrow hcol h2
      · rw [hsuit] at h
        dsimp only at h
        set P : LState := { placeSuitableAttempt ctx st1 st.curRow st.curCol L big
          with processed := st.processed + 1 } with hP
        have hpres := placeSuitableAttempt_preserve ctx st1 st.curRow st.curCol L big
        have hph : P.grid.height = st.grid.height := by
          rw [hP]
          exact hpres.1.trans hh1
        have hpw : P.grid.width = st.grid.width := by
          rw [hP]
          exact hpres.2.1.trans hw1
        have hpv : P.visited = insert (st.curRow, st.curCol) st.visited := by
          rw [hP]
          exact hpres.2.2.trans hvis1
        rcases hfind : findNearestEmptyNeighbor st.curRow st.curCol P.grid ctx.avail
            P.visited with - | p
        · rw [hfind] at h
          exact Sum.noConfusion h
        · rw [hfind] at h
          have hst : st' = { P with curRow := p.1, curCol := p.2 } :=
            (Sum.inl.inj h).symm
          subst hst
          have hpost := findNearestEmptyNeighbor_post _ _ _ _ _ p hfind
          refine ⟨hph, hpw, ?s1, ?s2, ?s3⟩
          · rw [← hph]
            exact hpost.1
          · rw [← hpw]
            exact hpost.2.1
          · exact lMeasure_continue st P p hph hpw hpv hrow hcol h2

theorem runFuel_isSome (ctx : LoopCtx) :
    ∀ (n : Nat) (st : LState), lMeasure st < n →
      st.curRow < st.grid.height → st.curCol < st.grid.width →
      (runFuel ctx n st).isSome = true := by
  intro n
  induction n using Nat.strong_induction_on with
  | _ n ihn =>
    intro st hm hrow hcol
    match n, hm with
    | n + 1, hm =>
      rw [runFuel]
      rcases hstep : newPlacementStep ctx st with st2 | fin
      · have hfacts := newPlacementStep_inl ctx st st2 hrow hcol hstep
        have h2 : (runFuel ctx n st2).isSome = true := by
          refine ihn n (by omega) st2 (by omega) ?p1 ?p2
          · rw [hfacts.1]
            exact hfacts.2.2.1
          · rw [hfacts.2.1]
            exact hfacts.2.2.2.1
        simpa using h2
      · simp

theorem firstFreeCell_lt (g : Grid) (avail : Mask) (hH : 1 ≤ g.height)
    (hW : 1 ≤ g.width) :
    (firstFreeCell g avail).1 < g.height ∧ (firstFreeCell g avail).2 < g.width := by
  rw [firstFreeCell]
  rcases hf : (((List.range g.height).flatMap fun r =>
      (List.range g.width).map fun c => (r, c)).find?
        fun rc => avail rc.1 rc.2 && ((g.cells rc.1 rc.2).letter == none)) with - | p
  · rw [hf, Option.getD_none]
    exact ⟨hH, hW⟩
  · rw [hf, Option.getD_some]
    have hmem := List.mem_of_find?_eq_some hf
    simp only [List.mem_flatMap, List.mem_map, List.mem_range] at hmem
    obtain ⟨r, hr, c, hc, heq⟩ := hmem
    rw [← heq]
    exact ⟨hr, hc⟩

theorem mem_insertSorted (le : α → α → Bool) (a x : α) :
    ∀ (l : List α), x ∈ insertSorted le a l ↔ x = a ∨ x ∈ l := by
  intro l
  induction l with
  | nil => simp [insertSorted]
  | cons b t ih =>
    rw [insertSorted]
    split
    · simp [List.mem_cons]
    · rw [List.mem_cons, ih, List.mem_cons]
      tauto

theorem mem_sortBy (le : α → α → Bool) (x : α) :
    ∀ (l : List α), x ∈ sortBy le l ↔ x ∈ l := by
  intro l
  induction l with
  | nil => simp [sortBy]
  | cons b t ih =>
    rw [sortBy, mem_insertSorted, ih, List.mem_cons]

theorem mem_findAllValidPositions (word : List Char) (d : Direction) (g : Grid)
    (avail : Mask) (p : ScoredPos) (h : p ∈ findAllValidPositions word d g avail) :
    p.row < g.height ∧ p.col < g.width ∧
    canPlaceWord word (Int.ofNat p.row) (Int.ofNat p.col) d g avail = true ∧
    p.overlap = calculateOverlap word (Int.ofNat p.row) (Int.ofNat p.col) d g := by
  rw [findAllValidPositions, mem_sortBy] at h
  simp only [List.mem_flatMap, List.mem_filterMap, List.mem_range] at h
  obtain ⟨row, hrow, col, hcol, hsome⟩ := h
  by_cases hcp : canPlaceWord word (Int.ofNat row) (Int.ofNat col) d g avail = true
  · rw [if_pos hcp] at hsome
    have hp : p = ScoredPos.mk row col
        (calculateOverlap word (Int.ofNat row) (Int.ofNat col) d g) :=
      (Option.some.inj hsome).symm
    subst hp
    exact ⟨hrow, hcol, hcp, rfl⟩
  · rw [if_neg hcp] at hsome
    exact Option.noConfusion hsome

theorem mem_allValidPositionsAllDirs (word : List Char) (g : Grid) (avail : Mask)
    (cand : Candidate) (h : cand ∈ allValidPositionsAllDirs word g avail) :
    cand.row < g.height ∧ cand.col < g.width ∧
    canPlaceWord word (Int.ofNat cand.row) (Int.ofNat cand.col) cand.dir g avail
      = true ∧
    cand.overlap = calculateOverlap word (Int.ofNat cand.row) (Int.ofNat cand.col)
      cand.dir g := by
  rw [allValidPositionsAllDirs] at h
  simp only [List.mem_flatMap, List.mem_map] at h
  obtain ⟨d, -, p, hp, heq⟩ := h
  have hfacts := mem_findAllValidPositions word d g avail p hp
  subst heq
  exact hfacts

theorem mem_filteredCandidates (word : List Char) (g : Grid) (avail : Mask)
    (cand : Candidate) (h : cand ∈ filteredCandidates word g avail) :
    cand.overlap < word.length ∧ cand ∈ allValidPositionsAllDirs word g avail := by
  rw [filteredCandidates] at h
  have hmem := List.mem_filter.mp h
  refine ⟨by simpa using hmem.2, ?m⟩
  rw [← mem_sortBy (fun a b => cappedScore word.length b ≤ cappedScore word.length a)]
  exact hmem.1

theorem placeWordsSelectPosition_mem (word : List Char) (g : Grid) (avail : Mask)
    (pick : Nat) (cand : Candidate)
    (h : placeWordsSelectPosition word g avail pick = some cand) :
    cand ∈ filteredCandidates word g avail := by
  rw [placeWordsSelectPosition] at h
  rcases hfc : filteredCandidates word g avail with - | ⟨p, rest⟩
  · rw [hfc] at h
    exact Option.noConfusion h
  · rw [hfc] at h
    dsimp only at h
    have hmem := List.get?_mem h
    exact (List.mem_filter.mp hmem).1

theorem setLetter_cells_self (g : Grid) (r c : Nat) (ch : Char) :
    ((g.setLetter r c ch).cells r c).letter = some ch := by
  rw [Grid.setLetter, setCell_cells_self]

theorem foldl_setLetter_isSome (noise : Nat → Nat → Char) :
    ∀ (l : List (Nat × Nat)) (g : Grid) (r c : Nat),
      ((r, c) ∈ l ∨ ((g.cells r c).letter).isSome = true) →
      (((l.foldl (fun acc rc => acc.setLetter rc.1 rc.2 (noise rc.1 rc.2)) g).cells
          r c).letter).isSome = true := by
  intro l
  induction l with
  | nil =>
    intro g r c h
    rcases h with h | h
    · exact absurd h (List.not_mem_nil _)
    · exact h
  | cons a rest ih =>
    intro g r c h
    rw [List.foldl_cons]
    apply ih
    rcases h with h | h
    · rcases List.mem_cons.mp h with heq | hmem
      · right
        subst heq
        rw [setLetter_cells_self]
        rfl
      · exact Or.inl hmem
    · right
      by_cases hrc : r = a.1 ∧ c = a.2
      · obtain ⟨h1, h2⟩ := hrc
        subst h1
        subst h2
        rw [setLetter_cells_self]
        rfl
      · rw [Grid.setLetter, setCell_cells_of_ne _ _ _ _ _ _ hrc]
        exact h

/-- C1: for every WordEntry with `placed = true` when generation ends (any state
reachable by engine transitions from the mask-ingested initial state with all
words unplaced), walking `word.length` steps from `(startRow, startCol)` along the
direction's per-step delta stays in bounds, visits only mask-available cells, and
the letter at the i-th visited cell equals the i-th character of the word
(case-normalized via `Char.toUpper`). -/
theorem c1_placement_consistency (avail : Mask) (height width : Nat)
    (noise : Nat → Nat → Char) (words0 : List WordSearchWord) (st : PState)
    (h0 : ∀ e, e ∈ words0 → e.placed = false)
    (hr : PReaches avail ⟨ingestGrid height width noise avail, words0⟩ st) :
    ∀ e, e ∈ st.words → e.placed = true → ∀ i, i < e.word.length →
      inBoundsRC st.grid (rowAt e.startRow e.direction i)
        (colAt e.startCol e.direction i) = true ∧
      avail (rowAt e.startRow e.direction i).toNat
        (colAt e.startCol e.direction i).toNat = true ∧
      (letterAt st.grid (rowAt e.startRow e.direction i)
          (colAt e.startCol e.direction i)).map Char.toUpper
        = some ((e.word.getD i 'A').toUpper) := by
  intro e he hp i hi
  have hinv := preaches_pinv avail _ st hr (pinv_init avail _ words0 h0)
  have hcons := hinv e he hp i hi
  refine ⟨hcons.1, hcons.2.1, ?l⟩
  rw [hcons.2.2]
  rfl

/-- C1 witness: placing "CAT" horizontally at the origin of a fully available 3×3
grid yields a reachable state whose placed entry passes the consistency check at
its first cell. -/
theorem c1_witness :
    inBoundsRC (placeWordInGrid ['C', 'A', 'T'] 0 0 Direction.horizontal
        (ingestGrid 3 3 (fun _ _ => 'Z') (fun _ _ => true)))
      (rowAt 0 Direction.horizontal 0) (colAt 0 Direction.horizontal 0) = true ∧
    (fun (_ _ : Nat) => true) (rowAt 0 Direction.horizontal 0).toNat
      (colAt 0 Direction.horizontal 0).toNat = true ∧
    (letterAt (placeWordInGrid ['C', 'A', 'T'] 0 0 Direction.horizontal
        (ingestGrid 3 3 (fun _ _ => 'Z') (fun _ _ => true)))
        (rowAt 0 Direction.horizontal 0)
        (colAt 0 Direction.horizontal 0)).map Char.toUpper
      = some ('C'.toUpper) :=
  c1_placement_consistency (fun _ _ => true) 3 3 (fun _ _ => 'Z')
    [WordSearchWord.mk ['C', 'A', 'T'] "" false 0 0 Direction.horizontal] _
    (by decide)
    (Relation.ReflTransGen.single
      (PStep.placeAt _ 0 (by decide) 0 0 Direction.horizontal (by decide) (by decide)))
    (WordSearchWord.mk ['C', 'A', 'T'] "" true 0 0 Direction.horizontal)
    (by decide) rfl 0 (by decide)

/-- C2: for every cell whose mask entry is false, the final cell is exactly the
mask-ingestion noise cell (random letter, `isWordLetter = false`, no word ids): no
later operation writes to it or marks it as a word letter. -/
theorem c2_mask_containment (avail : Mask) (height width : Nat)
    (noise : Nat → Nat → Char) (words0 : List WordSearchWord) (st : PState)
    (hr : PReaches avail ⟨ingestGrid height width noise avail, words0⟩ st)
    (r c : Nat) (hmask : avail r c = false) :
    st.grid.cells r c = GridCell.mk (some (noise r c)) false [] := by
  have h := preaches_cells_unavail avail _ st hr r c hmask
  rw [h, ingestGrid]
  dsimp only
  rw [if_neg ?f]
  case f =>
    rw [hmask]
    exact Bool.noConfusion

/-- C2 witness: on a 2×1 grid whose mask allows only row 1, a fill step into the
available cell leaves the mask-unavailable cell exactly as ingested. -/
theorem c2_witness :
    ((ingestGrid 2 1 (fun _ _ => 'Z') (fun r _ => decide (r = 1))).setLetter 1 0
        'X').cells 0 0 = GridCell.mk (some 'Z') false [] :=
  c2_mask_containment (fun r _ => decide (r = 1)) 2 1 (fun _ _ => 'Z') [] _
    (Relation.ReflTransGen.single (PStep.fill _ 1 0 'X' (by decide) (by decide)))
    0 0 (by decide)

/-- C4: once a grid cell holds a letter, no later engine operation (placement,
random fill, flood fill) changes it to a different letter: along every transition
sequence the letter is preserved (overlap writes re-store the same letter). -/
theorem c4_no_silent_overwrite (avail : Mask) (st st' : PState)
    (hr : PReaches avail st st') (r c : Nat) (ch : Char)
    (hl : (st.grid.cells r c).letter = some ch) :
    (st'.grid.cells r c).letter = some ch :=
  preaches_letter_mono avail st st' hr r c ch hl

/-- C4 witness: a fill step into the empty cell of a 2×1 grid leaves the occupied
cell's letter unchanged. -/
theorem c4_witness :
    ((((Grid.mk 2 1 fun r _ => if r = 0 then GridCell.mk (some 'Q') false []
        else emptyCell)).setLetter 1 0 'X').cells 0 0).letter = some 'Q' :=
  c4_no_silent_overwrite (fun _ _ => true)
    ⟨Grid.mk 2 1 fun r _ => if r = 0 then GridCell.mk (some 'Q') false []
      else emptyCell, []⟩
    ⟨(Grid.mk 2 1 fun r _ => if r = 0 then GridCell.mk (some 'Q') false []
      else emptyCell).setLetter 1 0 'X', []⟩
    (Relation.ReflTransGen.single (PStep.fill _ 1 0 'X' rfl (by decide)))
    0 0 'Q' (by decide)

/-- C5: after the space filler runs, every mask-available in-bounds cell holds a
non-empty letter. -/
theorem c5_full_coverage (noise : Nat → Nat → Char) (g : Grid) (avail : Mask)
    (r c : Nat) (hr : r < g.height) (hc : c < g.width) (hm : avail r c = true) :
    (((fillEmptySpacesWithUpdates noise g avail).cells r c).letter).isSome = true := by
  rw [fillEmptySpacesWithUpdates]
  apply foldl_setLetter_isSome
  rcases hL : (g.cells r c).letter with - | l
  · left
    rw [positionsToFill]
    refine List.mem_flatMap.mpr ⟨r, List.mem_range.mpr hr, ?i2⟩
    refine List.mem_filterMap.mpr ⟨c, List.mem_range.mpr hc, ?i3⟩
    rw [if_pos ⟨hm, hL⟩]
  · right
    rfl

/-- C5 witness: the single available cell of an empty 1×1 grid is non-empty after
filling. -/
theorem c5_witness :
    (((fillEmptySpacesWithUpdates (fun _ _ => 'Q')
        (Grid.mk 1 1 fun _ _ => emptyCell) (fun _ _ => true)).cells 0 0).letter).isSome
      = true :=
  c5_full_coverage (fun _ _ => 'Q') (Grid.mk 1 1 fun _ _ => emptyCell)
    (fun _ _ => true) 0 0 (by decide) (by decide) rfl

/-- C6 counterexample: the claim's "case-insensitive (normalized to uppercase)"
letter comparison does not match the code.  On a 1×1 grid holding 'A' with a fully
available mask, the lowercase word "a" satisfies the case-insensitive criterion but
`canPlaceWord` rejects the position: the code compares letters verbatim. -/
theorem c6_counterexample :
    ¬ (canPlaceWord ['a'] 0 0 Direction.horizontal
        (Grid.mk 1 1 fun _ _ => GridCell.mk (some 'A') false [])
        (fun _ _ => true) = true ↔
      ValidPosCI ['a'] 0 0 Direction.horizontal
        (Grid.mk 1 1 fun _ _ => GridCell.mk (some 'A') false [])
        (fun _ _ => true)) := by
  simp only [ValidPosCI]
  decide

/-- C6 (amended): a start position is judged valid by the placement search if and
only if every cell of the word's footprint is in bounds, mask-available, and either
empty or already holding verbatim the same character the word would place there
(exact comparison, no case normalization). -/
theorem c6_position_validity (word : List Char) (sr sc : Int) (d : Direction)
    (g : Grid) (avail : Mask) :
    canPlaceWord word sr sc d g avail = true ↔ ValidPosExact word sr sc d g avail :=
  canPlaceWord_iff_validPosExact word sr sc d g avail

/-- C7: the batch placement operation never selects a candidate whose overlap
equals the full word length: a selected position always has overlap below the word
length, hence some footprint cell does not already match (no no-op placement). -/
theorem c7_no_full_overlap_commit (word : List Char) (g : Grid) (avail : Mask)
    (pick : Nat) (cand : Candidate)
    (h : placeWordsSelectPosition word g avail pick = some cand) :
    calculateOverlap word (Int.ofNat cand.row) (Int.ofNat cand.col) cand.dir g
        < word.length ∧
    ¬ FullMatchAt word (Int.ofNat cand.row) (Int.ofNat cand.col) cand.dir g := by
  have hmem := placeWordsSelectPosition_mem word g avail pick cand h
  have hfc := mem_filteredCandidates word g avail cand hmem
  have hall := mem_allValidPositionsAllDirs word g avail cand hfc.2
  have hlt : calculateOverlap word (Int.ofNat cand.row) (Int.ofNat cand.col)
      cand.dir g < word.length := by
    rw [← hall.2.2.2]
    exact hfc.1
  refine ⟨hlt, ?nf⟩
  intro hFM
  rw [← calculateOverlap_eq_length_iff] at hFM
  omega

/-- C7 witness: on an empty 1×3 grid the word "AB" is selected at the origin with
overlap 0, strictly below the word length 2. -/
theorem c7_witness :
    placeWordsSelectPosition ['A', 'B'] (Grid.mk 1 3 fun _ _ => emptyCell)
        (fun _ _ => true) 0 = some (Candidate.mk 0 0 0 Direction.horizontal) ∧
    calculateOverlap ['A', 'B'] 0 0 Direction.horizontal
        (Grid.mk 1 3 fun _ _ => emptyCell) < 2 :=
  ⟨by decide,
    (c7_no_full_overlap_commit ['A', 'B'] (Grid.mk 1 3 fun _ _ => emptyCell)
      (fun _ _ => true) 0 (Candidate.mk 0 0 0 Direction.horizontal) (by decide)).1⟩

/-- C8: re-running the overlap computation for an already-placed word at its exact
recorded position and direction, in any state reachable after the placement,
reports an overlap equal to the full word length. -/
theorem c8_idempotent_rescan (avail : Mask) (height width : Nat)
    (noise : Nat → Nat → Char) (words0 : List WordSearchWord) (st : PState)
    (h0 : ∀ e, e ∈ words0 → e.placed = false)
    (hr : PReaches avail ⟨ingestGrid height width noise avail, words0⟩ st) :
    ∀ e, e ∈ st.words → e.placed = true →
      calculateOverlap e.word e.startRow e.startCol e.direction st.grid
        = e.word.length := by
  intro e he hp
  have hinv := preaches_pinv avail _ st hr (pinv_init avail _ words0 h0)
  have hcons := hinv e he hp
  rw [calculateOverlap, calculateOverlapFrom_eq_length_iff]
  intro j hj
  have h := (hcons j hj).2.2
  simpa using h

/-- C8 witness: after placing "CAT" at the origin of a fully available 3×3 grid,
rescanning it at its recorded position reports overlap 3. -/
theorem c8_witness :
    calculateOverlap ['C', 'A', 'T'] 0 0 Direction.horizontal
      (placeWordInGrid ['C', 'A', 'T'] 0 0 Direction.horizontal
        (ingestGrid 3 3 (fun _ _ => 'Z') (fun _ _ => true))) = 3 :=
  c8_idempotent_rescan (fun _ _ => true) 3 3 (fun _ _ => 'Z')
    [WordSearchWord.mk ['C', 'A', 'T'] "" false 0 0 Direction.horizontal] _
    (by decide)
    (Relation.ReflTransGen.single
      (PStep.placeAt _ 0 (by decide) 0 0 Direction.horizontal (by decide) (by decide)))
    (WordSearchWord.mk ['C', 'A', 'T'] "" true 0 0 Direction.horizontal)
    (by decide) rfl

/-- C9: with zero or negative computed grid dimensions, `generatePuzzle` fails
before any placement: a blocking error is recorded and the stored grid is left
unchanged (zero dimensions hit the explicit guard; negative dimensions make the
`Array(n)` constructor throw inside the try block, before the grid is stored). -/
theorem c9_config_error_fails_fast (st : StoreLike) (gridWidth gridHeight : Int)
    (hbad : gridWidth ≤ 0 ∨ gridHeight ≤ 0) :
    (runGeneratePhase1 st gridWidth gridHeight).grid = st.grid ∧
    ((runGeneratePhase1 st gridWidth gridHeight).error).isSome = true := by
  rw [runGeneratePhase1, generatePuzzleStart]
  by_cases h0 : gridWidth = 0 ∨ gridHeight = 0
  · rw [if_pos h0]
    exact ⟨rfl, rfl⟩
  · rw [if_neg h0]
    push_neg at h0
    by_cases hh : gridHeight < 0
    · rw [if_pos hh]
      exact ⟨rfl, rfl⟩
    · rw [if_neg hh]
      have hw : gridWidth < 0 := by omega
      rw [if_pos hw]
      exact ⟨rfl, rfl⟩

/-- C9 witness: width -3 and height 5 surface an error and leave the stored grid
untouched. -/
theorem c9_witness :
    (runGeneratePhase1 (StoreLike.mk [] none) (-3) 5).grid = [] ∧
    ((runGeneratePhase1 (StoreLike.mk [] none) (-3) 5).error).isSome = true :=
  c9_config_error_fails_fast (StoreLike.mk [] none) (-3) 5 (Or.inl (by decide))

/-- C10: if `canPlaceWord` accepts a word at a start position and direction, then
every footprint index subsequently touched by `calculateOverlap` and
`placeWordInGrid` for the same word, position and direction (the cells
`(rowAt, colAt)` for `i < word.length`, including the decreasing rows of
diagonal-up) lies within the grid bounds, so their unguarded indexing never goes
out of range. -/
theorem c10_footprint_in_bounds (word : List Char) (sr sc : Int) (d : Direction)
    (g : Grid) (avail : Mask) (hcan : canPlaceWord word sr sc d g avail = true) :
    ∀ i, i < word.length →
      0 ≤ rowAt sr d i ∧ rowAt sr d i < (g.height : Int) ∧
      0 ≤ colAt sc d i ∧ colAt sc d i < (g.width : Int) := by
  intro i hi
  have h := (canPlaceWordFrom_iff g avail sr sc d word 0).mp hcan i hi
  rw [okAt] at h
  obtain ⟨hb, -, -⟩ := h
  rw [inBoundsRC_iff] at hb
  simpa using hb

/-- C10 witness: the accepted diagonal-up placement of "AB" from (1,0) on an empty
2×2 grid has both footprint cells in bounds. -/
theorem c10_witness :
    canPlaceWord ['A', 'B'] 1 0 Direction.diagonalUp
        (Grid.mk 2 2 fun _ _ => emptyCell) (fun _ _ => true) = true ∧
    (0 ≤ rowAt 1 Direction.diagonalUp 1 ∧
      rowAt 1 Direction.diagonalUp 1 < ((Grid.mk 2 2 fun _ _ => emptyCell).height : Int) ∧
      0 ≤ colAt 0 Direction.diagonalUp 1 ∧
      colAt 0 Direction.diagonalUp 1 < ((Grid.mk 2 2 fun _ _ => emptyCell).width : Int)) :=
  ⟨by decide,
    c10_footprint_in_bounds ['A', 'B'] 1 0 Direction.diagonalUp
      (Grid.mk 2 2 fun _ _ => emptyCell) (fun _ _ => true) (by decide) 1 (by decide)⟩

/-- C3: the coverage-driven generation loop always halts, for every grid, mask,
initial word list and supplier behavior (including one that always fails or always
returns unplaceable words): the visited-position set plays the role of the
iteration cap, bounding the loop by `2·height·width + 2` iterations, so running
with that much fuel always reaches a loop exit — the loop never runs
indefinitely.  (The source has no literal `maxIterations` constant; this
grid-derived bound is the cap the code actually enforces.) -/
theorem c3_coverage_loop_terminates (supplier : Nat → Option GenWord)
    (fillNoise : Nat → Nat → Char) (g : Grid) (words : List WordSearchWord)
    (avail : Mask) (totalAvailableSpaces : Nat) (hH : 1 ≤ g.height)
    (hW : 1 ≤ g.width) :
    (newPlacementAlgorithmWithUpdates supplier fillNoise g words avail
      totalAvailableSpaces).isSome = true := by
  rw [newPlacementAlgorithmWithUpdates]
  have hfc := firstFreeCell_lt g avail hH hW
  refine runFuel_isSome _ _ _ ?m ?r ?c
  · have hle := lMeasure_le (newPlacementInit g words avail)
    have hgr : (newPlacementInit g words avail).grid = g := rfl
    rw [hgr] at hle
    omega
  · exact hfc.1
  · exact hfc.2

/-- C3 witness: a 1×1 grid with an always-failing supplier and no initial words
halts within the fuel bound. -/
theorem c3_witness :
    (newPlacementAlgorithmWithUpdates (fun _ => none) (fun _ _ => 'Q')
        (Grid.mk 1 1 fun _ _ => emptyCell) [] (fun _ _ => false) 0).isSome = true :=
  c3_coverage_loop_terminates (fun _ => none) (fun _ _ => 'Q')
    (Grid.mk 1 1 fun _ _ => emptyCell) [] (fun _ _ => false) 0 (by decide) (by decide)

theorem getD_indexOf_self (a : WordSearchWord) (l : List WordSearchWord) (h : a ∈ l) :
    l.getD (l.indexOf a) default = a := by
  have h1 : List.indexOf a l < l.length := List.indexOf_lt_length.mpr h
  rw [List.getD_eq_getElem?_getD, List.getElem?_indexOf h]
  rfl

theorem placeAt_step (avail : Mask) (g : Grid) (ws : List WordSearchWord)
    (target : WordSearchWord) (r c : Nat) (d : Direction)
    (hmem : target ∈ ws) (hun : target.placed = false)
    (hcan : canPlaceWord target.word (r : Int) (c : Int) d g avail = true) :
    PStep avail ⟨g, ws⟩
      ⟨placeWordInGrid target.word (r : Int) (c : Int) d g,
        markPlaced ws target r c d⟩ := by
  have hidx : ws.indexOf target < ws.length := List.indexOf_lt_length.mpr hmem
  have hget : ws.getD (ws.indexOf target) default = target := getD_indexOf_self _ _ hmem
  have hun2 : (ws.getD (ws.indexOf target) default).placed = false := by
    rw [hget]
    exact hun
  have hcan2 : canPlaceWord (ws.getD (ws.indexOf target) default).word (r : Int)
      (c : Int) d g avail = true := by
    rw [hget]
    exact hcan
  have step := PStep.placeAt ⟨g, ws⟩ (ws.indexOf target) hidx (r : Int) (c : Int) d
    hun2 hcan2
  have hmk : (PState.mk
      (placeWordInGrid (ws.getD (ws.indexOf target) default).word (r : Int) (c : Int)
        d g)
      (ws.set (ws.indexOf target) { ws.getD (ws.indexOf target) default with
        placed := true
        startRow := (r : Int)
        startCol := (c : Int)
        direction := d }))
      = PState.mk (placeWordInGrid target.word (r : Int) (c : Int) d g)
        (markPlaced ws target r c d) := by
    rw [markPlaced, hget]
  rw [← hmk]
  exact step

theorem foldl_setLetter_preaches (avail : Mask) (noise : Nat → Nat → Char)
    (ws : List WordSearchWord) :
    ∀ (l : List (Nat × Nat)) (g : Grid), l.Nodup →
      (∀ rc, rc ∈ l → avail rc.1 rc.2 = true ∧ (g.cells rc.1 rc.2).letter = none) →
      PReaches avail ⟨g, ws⟩
        ⟨l.foldl (fun acc rc => acc.setLetter rc.1 rc.2 (noise rc.1 rc.2)) g, ws⟩ := by
  intro l
  induction l with
  | nil =>
    intro g hnd hok
    exact Relation.ReflTransGen.refl
  | cons a rest ih =>
    intro g hnd hok
    rw [List.foldl_cons]
    have hstep : PStep avail ⟨g, ws⟩ ⟨g.setLetter a.1 a.2 (noise a.1 a.2), ws⟩ :=
      PStep.fill ⟨g, ws⟩ a.1 a.2 (noise a.1 a.2) (hok a (by simp)).1 (hok a (by simp)).2
    refine Relation.ReflTransGen.head hstep (ih _ (List.Nodup.of_cons hnd) ?tail)
    intro rc hrc
    have hne : rc ≠ a := by
      intro hcontra
      subst hcontra
      exact (List.nodup_cons.mp hnd).1 hrc
    refine ⟨(hok rc (List.mem_cons_of_mem _ hrc)).1, ?emp⟩
    rw [Grid.setLetter, setCell_cells_of_ne]
    · exact (hok rc (List.mem_cons_of_mem _ hrc)).2
    · intro hcontra
      apply hne
      obtain ⟨h1, h2⟩ := hcontra
      exact Prod.ext h1 h2

theorem positionsToFill_spec (g : Grid) (avail : Mask) (rc : Nat × Nat)
    (h : rc ∈ positionsToFill g avail) :
    avail rc.1 rc.2 = true ∧ (g.cells rc.1 rc.2).letter = none := by
  rw [positionsToFill] at h
  simp only [List.mem_flatMap, List.mem_filterMap, List.mem_range] at h
  obtain ⟨row, hrow, col, hcol, hsome⟩ := h
  by_cases hc : avail row col = true ∧ (g.cells row col).letter = none
  · rw [if_pos hc] at hsome
    rw [← Option.some.inj hsome]
    exact hc
  · rw [if_neg hc] at hsome
    exact Option.noConfusion hsome

theorem positionsToFill_nodup (g : Grid) (avail : Mask) :
    (positionsToFill g avail).Nodup := by
  rw [positionsToFill]
  rw [List.nodup_flatMap]
  constructor
  · intro row hrow
    refine List.Nodup.filterMap ?inj (List.nodup_range _)
    intro c1 c2 rc hsome1 hsome2
    by_cases h1 : avail row c1 = true ∧ (g.cells row c1).letter = none
    · rw [if_pos h1] at hsome1
      by_cases h2 : avail row c2 = true ∧ (g.cells row c2).letter = none
      · rw [if_pos h2] at hsome2
        have e1 : (row, c1) = rc := by simpa using hsome1
        have e2 : (row, c2) = rc := by simpa using hsome2
        rw [← e1] at e2
        exact (((Prod.mk.injEq _ _ _ _).mp e2).2).symm
      · rw [if_neg h2] at hsome2
        simp at hsome2
    · rw [if_neg h1] at hsome1
      simp at hsome1
  · refine List.Pairwise.imp ?imp (List.pairwise_lt_range _)
    intro r1 r2 hlt
    rw [Function.onFun]
    rw [List.disjoint_left]
    intro rc h1 h2
    have hr1 : rc.1 = r1 := by
      simp only [List.mem_filterMap, List.mem_range] at h1
      obtain ⟨col, -, hsome⟩ := h1
      by_cases hc : avail r1 col = true ∧ (g.cells r1 col).letter = none
      · rw [if_pos hc] at hsome
        rw [← Option.some.inj hsome]
      · rw [if_neg hc] at hsome
        exact Option.noConfusion hsome
    have hr2 : rc.1 = r2 := by
      simp only [List.mem_filterMap, List.mem_range] at h2
      obtain ⟨col, -, hsome⟩ := h2
      by_cases hc : avail r2 col = true ∧ (g.cells r2 col).letter = none
      · rw [if_pos hc] at hsome
        rw [← Option.some.inj hsome]
      · rw [if_neg hc] at hsome
        exact Option.noConfusion hsome
    omega

theorem fillEmptySpacesWithUpdates_preaches (noise : Nat → Nat → Char) (g : Grid)
    (avail : Mask) (ws : List WordSearchWord) :
    PReaches avail ⟨g, ws⟩ ⟨fillEmptySpacesWithUpdates noise g avail, ws⟩ := by
  rw [fillEmptySpacesWithUpdates]
  exact foldl_setLetter_preaches avail noise ws (positionsToFill g avail) g
    (positionsToFill_nodup g avail) (fun rc hrc => positionsToFill_spec g avail rc hrc)

theorem floodFillLoop_preaches (fillNoise : Nat → Nat → Char) (height width : Nat)
    (avail : Mask) (ws : List WordSearchWord) :
    ∀ (n : Nat) (q : List (Nat × Nat × Nat)) (visited : Finset (Nat × Nat)) (g : Grid),
      2 * ((gridCellsFinset height width) \ visited).card + q.length ≤ n →
      PReaches avail ⟨g, ws⟩
        ⟨floodFillLoop fillNoise height width avail q visited g, ws⟩ := by
  intro n
  induction n using Nat.strong_induction_on with
  | _ n ihn =>
    intro q visited g hn
    match q with
    | [] =>
      rw [floodFillLoop]
      exact Relation.ReflTransGen.refl
    | (r, c, dist) :: rest =>
      rw [floodFillLoop]
      have hmeas := enqueueNeighbors_measure height width
        (fun nr nc => avail nr nc &&
          (((if avail r c = true ∧ (g.cells r c).letter = none
              then g.setLetter r c (fillNoise r c) else g).cells nr nc).letter == none))
        r c dist neighborDirs4 (visited, rest)
      dsimp only at hmeas
      have hlen : ((r, c, dist) :: rest).length = rest.length + 1 := List.length_cons _ _
      by_cases hcond : avail r c = true ∧ (g.cells r c).letter = none
      · rw [if_pos hcond] at hmeas ⊢
        have hstep : PStep avail ⟨g, ws⟩ ⟨g.setLetter r c (fillNoise r c), ws⟩ :=
          PStep.fill ⟨g, ws⟩ r c (fillNoise r c) hcond.1 hcond.2
        refine Relation.ReflTransGen.head hstep (ihn (n - 1) (by omega) _ _ _ (by omega))
      · rw [if_neg hcond] at hmeas ⊢
        exact ihn (n - 1) (by omega) _ _ _ (by omega)

theorem floodFillWithRandomLetters_preaches (fillNoise : Nat → Nat → Char) (g : Grid)
    (row col : Nat) (avail : Mask) (ws : List WordSearchWord) :
    PReaches avail ⟨g, ws⟩
      ⟨floodFillWithRandomLetters fillNoise g row col avail, ws⟩ := by
  rw [floodFillWithRandomLetters]
  exact floodFillLoop_preaches fillNoise g.height g.width avail ws
    (2 * ((gridCellsFinset g.height g.width) \
      ({(row, col)} : Finset (Nat × Nat))).card + 1) _ _ g (by simp)

theorem findSuitableWords_mem (words : List WordSearchWord)
    (lengths : ContiguousLength) (w : WordSearchWord)
    (h : w ∈ findSuitableWords words lengths) : w ∈ words := by
  rw [findSuitableWords, mem_sortBy] at h
  exact (List.mem_filter.mp h).1

theorem generateWordAttempt_preaches (ctx : LoopCtx) (st1 : LState)
    (curRow curCol : Nat) (lengths : ContiguousLength) (maxLength : Nat) :
    PReaches ctx.avail ⟨st1.grid, st1.allWords⟩
      ⟨(generateWordAttempt ctx st1 curRow curCol lengths maxLength).grid,
        (generateWordAttempt ctx st1 curRow curCol lengths maxLength).allWords⟩ := by
  rw [generateWordAttempt]
  dsimp only
  split
  case isFalse h =>
    exact Relation.ReflTransGen.refl
  case isTrue h =>
    rcases hsup : ctx.supplier st1.calls with - | gw
    · exact Relation.ReflTransGen.refl
    · dsimp only
      by_cases hsel : min maxLength 8 < gw.word.length
      · rw [if_pos hsel]
        split
        all_goals
        first
          | exact Relation.ReflTransGen.head
              (PStep.addWord ⟨st1.grid, st1.allWords⟩ (WordSearchWord.mk ((gw.word.take (min maxLength 8)).map Char.toUpper)
              gw.hint false 0 0 Direction.horizontal) rfl)
              (Relation.ReflTransGen.single
                (placeAt_step ctx.avail st1.grid
                  (st1.allWords ++ [(WordSearchWord.mk ((gw.word.take (min maxLength 8)).map Char.toUpper)
              gw.hint false 0 0 Direction.horizontal)])
                  (WordSearchWord.mk ((gw.word.take (min maxLength 8)).map Char.toUpper)
              gw.hint false 0 0 Direction.horizontal)
                  curRow curCol
                  (getBestDirectionForWord (WordSearchWord.mk ((gw.word.take (min maxLength 8)).map Char.toUpper)
              gw.hint false 0 0 Direction.horizontal) lengths st1.orient)
                  (by simp) rfl (by assumption)))
          | exact Relation.ReflTransGen.single
              (PStep.addWord ⟨st1.grid, st1.allWords⟩ (WordSearchWord.mk ((gw.word.take (min maxLength 8)).map Char.toUpper)
              gw.hint false 0 0 Direction.horizontal) rfl)
      · rw [if_neg hsel]
        split
        all_goals
        first
          | exact Relation.ReflTransGen.head
              (PStep.addWord ⟨st1.grid, st1.allWords⟩ (WordSearchWord.mk gw.word gw.hint false 0 0 Direction.horizontal) rfl)
              (Relation.ReflTransGen.single
                (placeAt_step ctx.avail st1.grid
                  (st1.allWords ++ [(WordSearchWord.mk gw.word gw.hint false 0 0 Direction.horizontal)])
                  (WordSearchWord.mk gw.word gw.hint false 0 0 Direction.horizontal)
                  curRow curCol
                  (getBestDirectionForWord (WordSearchWord.mk gw.word gw.hint false 0 0 Direction.horizontal) lengths st1.orient)
                  (by simp) rfl (by assumption)))
          | exact Relation.ReflTransGen.single
              (PStep.addWord ⟨st1.grid, st1.allWords⟩ (WordSearchWord.mk gw.word gw.hint false 0 0 Direction.horizontal) rfl)

theorem placeSuitableAttempt_preaches (ctx : LoopCtx) (st1 : LState)
    (curRow curCol : Nat) (lengths : ContiguousLength) (biggestWord : WordSearchWord)
    (hmem : biggestWord ∈ st1.allWords) (hun : biggestWord.placed = false) :
    PReaches ctx.avail ⟨st1.grid, st1.allWords⟩
      ⟨(placeSuitableAttempt ctx st1 curRow curCol lengths biggestWord).grid,
        (placeSuitableAttempt ctx st1 curRow curCol lengths biggestWord).allWords⟩ := by
  rw [placeSuitableAttempt]
  split
  case isTrue hcp =>
    exact Relation.ReflTransGen.single
      (placeAt_step ctx.avail st1.grid st1.allWords biggestWord curRow curCol _
        hmem hun hcp)
  case isFalse hcp =>
    exact Relation.ReflTransGen.refl

theorem newPlacementStep_preaches (ctx : LoopCtx) (st st' : LState)
    (h : newPlacementStep ctx st = Sum.inl st' ∨ newPlacementStep ctx st = Sum.inr st') :
    PReaches ctx.avail ⟨st.grid, st.allWords⟩ ⟨st'.grid, st'.allWords⟩ := by
  rw [newPlacementStep] at h
  by_cases h1 : st.processed < st.allWords.length
  case neg =>
    rw [if_neg h1] at h
    rcases h with h | h
    · exact Sum.noConfusion h
    · rw [← Sum.inr.inj h]
      exact Relation.ReflTransGen.refl
  rw [if_pos h1] at h
  by_cases h2 : (st.curRow, st.curCol) ∈ st.visited
  · rw [if_pos h2] at h
    rcases hfind : findNearestEmptyNeighbor st.curRow st.curCol st.grid ctx.avail
        st.visited with - | p
    all_goals rw [hfind] at h
    · rcases h with h | h
      · exact Sum.noConfusion h
      · rw [← Sum.inr.inj h]
        exact Relation.ReflTransGen.refl
    · rcases h with h | h
      · rw [← Sum.inl.inj h]
        exact Relation.ReflTransGen.refl
      · exact Sum.noConfusion h
  · rw [if_neg h2] at h
    dsimp only at h
    set st1 : LState := { st with visited := insert (st.curRow, st.curCol) st.visited }
      with hst1
    set L := findContiguousLengths st.curRow st.curCol st.grid ctx.avail with hL
    set M := max (max L.horizontal L.vertical) (max L.diagonalDown L.diagonalUp)
      with hM
    have hg1 : st1.grid = st.grid := by rw [hst1]
    have hw1 : st1.allWords = st.allWords := by rw [hst1]
    by_cases h3 : M < ctx.smallestWordLength
    · rw [if_pos h3] at h
      by_cases h4 : M < 3
      · rw [if_pos h4] at h
        rcases h with h | h
        · exact Sum.noConfusion h
        · rw [← Sum.inr.inj h]
          exact floodFillWithRandomLetters_preaches ctx.fillNoise st.grid st.curRow
            st.curCol ctx.avail st.allWords
      · rw [if_neg h4] at h
        rcases h with h | h
        · exact Sum.noConfusion h
        · rw [← Sum.inr.inj h]
          exact Relation.ReflTransGen.refl
    · rw [if_neg h3] at h
      rcases hsuit : findSuitableWords (st.allWords.filter fun w => !w.placed) L
        with - | ⟨big, tl⟩
      · rw [hsuit] at h
        dsimp only at h
        have hgen := generateWordAttempt_preaches ctx st1 st.curRow st.curCol L M
        rw [hg1, hw1] at hgen
        rcases hfind : findNearestEmptyNeighbor st.curRow st.curCol
            (generateWordAttempt ctx st1 st.curRow st.curCol L M).grid ctx.avail
            (generateWordAttempt ctx st1 st.curRow st.curCol L M).visited with - | p
        all_goals rw [hfind] at h
        · rcases h with h | h
          · exact Sum.noConfusion h
          · rw [← Sum.inr.inj h]
            exact hgen
        · rcases h with h | h
          · rw [← Sum.inl.inj h]
            exact hgen
          · exact Sum.noConfusion h
      · rw [hsuit] at h
        dsimp only at h
        have hbig : big ∈ st.allWords ∧ big.placed = false := by
          have hmem := findSuitableWords_mem _ L big (by rw [hsuit]; exact List.mem_cons_self _ _)
          have h5 := List.mem_filter.mp hmem
          refine ⟨h5.1, by simpa using h5.2⟩
        have hplace := placeSuitableAttempt_preaches ctx st1 st.curRow st.curCol L big
          (by rw [hw1]; exact hbig.1) hbig.2
        rw [hg1, hw1] at hplace
        rcases hfind : findNearestEmptyNeighbor st.curRow st.curCol
            ({ placeSuitableAttempt ctx st1 st.curRow st.curCol L big with
              processed := st.processed + 1 } : LState).grid ctx.avail
            ({ placeSuitableAttempt ctx st1 st.curRow st.curCol L big with
              processed := st.processed + 1 } : LState).visited with - | p
        all_goals rw [hfind] at h
        · rcases h with h | h
          · exact Sum.noConfusion h
          · rw [← Sum.inr.inj h]
            exact hplace
        · rcases h with h | h
          · rw [← Sum.inl.inj h]
            exact hplace
          · exact Sum.noConfusion h

theorem runFuel_preaches (ctx : LoopCtx) :
    ∀ (n : Nat) (st stF : LState), runFuel ctx n st = some stF →
      PReaches ctx.avail ⟨st.grid, st.allWords⟩ ⟨stF.grid, stF.allWords⟩ := by
  intro n
  induction n with
  | zero =>
    intro st stF h
    exact Option.noConfusion h
  | succ n ih =>
    intro st stF h
    rw [runFuel] at h
    rcases hstep : newPlacementStep ctx st with st2 | fin
    all_goals rw [hstep] at h
    · exact Relation.ReflTransGen.trans
        (newPlacementStep_preaches ctx st st2 (Or.inl hstep)) (ih st2 stF h)
    · rw [← Option.some.inj h]
      exact newPlacementStep_preaches ctx st fin (Or.inr hstep)

/-- The coverage algorithm's whole run stays within the engine-transition relation:
every grid/word-list change it makes is a `PStep` (a `canPlaceWord`-guarded
placement, a supplier word push, or a guarded noise-letter fill). -/
theorem newPlacementAlgorithmWithUpdates_preaches (supplier : Nat → Option GenWord)
    (fillNoise : Nat → Nat → Char) (g : Grid) (words : List WordSearchWord)
    (avail : Mask) (totalAvailableSpaces : Nat) (stF : LState)
    (h : newPlacementAlgorithmWithUpdates supplier fillNoise g words avail
      totalAvailableSpaces = some stF) :
    PReaches avail ⟨g, words⟩ ⟨stF.grid, stF.allWords⟩ := by
  rw [newPlacementAlgorithmWithUpdates] at h
  exact runFuel_preaches _ _ _ _ h

/-- The full generation pipeline after mask ingestion (coverage-driven placement
followed by the space filler) stays within the engine-transition relation, so the
reachability hypotheses of the mask-containment, no-overwrite, consistency and
rescan theorems hold of the pipeline's final state. -/
theorem generation_pipeline_preaches (supplier : Nat → Option GenWord)
    (fillNoise fillNoise2 : Nat → Nat → Char) (g : Grid)
    (words : List WordSearchWord) (avail : Mask) (totalAvailableSpaces : Nat)
    (stF : LState)
    (h : newPlacementAlgorithmWithUpdates supplier fillNoise g words avail
      totalAvailableSpaces = some stF) :
    PReaches avail ⟨g, words⟩
      ⟨fillEmptySpacesWithUpdates fillNoise2 stF.grid avail, stF.allWords⟩ :=
  Relation.ReflTransGen.trans
    (newPlacementAlgorithmWithUpdates_preaches supplier fillNoise g words avail
      totalAvailableSpaces stF h)
    (fillEmptySpacesWithUpdates_preaches fillNoise2 stF.grid avail stF.allWords)
